import Mathlib

/-
  Verification of the block/free-list core of a heap allocator
  (block.c and freelist.c).

  The heap is modelled shallowly: machine addresses are natural numbers and
  the mutable memory holding block headers is an association list from
  addresses to block records (a store).  Every C function is translated to a
  state-passing Lean function over this store, one store write per C
  assignment, in source order.  The sbrk primitive is modelled by a `brk`
  field of the state: growth always succeeds (the model heap is unbounded)
  and shrink always succeeds; the heap-exhaustion paths are therefore not
  modelled.  Counters are a record of integers.
-/

namespace Malloc


/-- A block header: `capacity`, `size`, and the intrusive circular-list
links `prev` and `next` (stored as addresses).  The payload of a block at
address `a` starts at `a + sizeofBlock` (the C `data` flexible member). -/
structure Block where
  capacity : Nat
  size : Nat
  prev : Nat
  next : Nat
deriving DecidableEq

/-- The counters collaborator (counters.h): one named slot per event. -/
structure Counters where
  heapSize : Int
  blocks : Int
  grows : Int
  shrinks : Int
  reuses : Int
  merges : Int
  splits : Int
deriving DecidableEq

/-- The store: an association list from addresses to block headers. -/
abbrev Store := List (Nat × Block)

def storeFind : Store → Nat → Option Block
  | [], _ => none
  | (a, b) :: rest, x => if a = x then some b else storeFind rest x

def storeSet : Store → Nat → Block → Store
  | [], a, b => [(a, b)]
  | (a', b') :: rest, a, b =>
    if a' = a then (a, b) :: rest else (a', b') :: storeSet rest a b

def storeErase : Store → Nat → Store
  | [], _ => []
  | (a', b') :: rest, a =>
    if a' = a then rest else (a', b') :: storeErase rest a

/-- Whole allocator state: the store, the current heap boundary (program
break) and the counters. -/
structure Heap where
  store : Store
  brk : Nat
  counters : Counters
deriving DecidableEq

/-- Modelled from the spec: the configured alignment boundary for capacity
rounding.  The repository's block.h is not under src/; the spec only calls
it "the configured alignment", so the customary value 8 is fixed here. -/
def ALIGNMENT : Nat := 8

/-- Modelled from the spec: `ALIGN(size)` rounds `size` up to the next
multiple of `ALIGNMENT` (block.h's `(size + ALIGNMENT-1) & ~(ALIGNMENT-1)`,
expressed over unbounded naturals). -/
def ALIGN (s : Nat) : Nat := (s + (ALIGNMENT - 1)) / ALIGNMENT * ALIGNMENT

/-- Modelled from the spec: the header size `sizeof(Block)`.  The struct has
two size fields and two pointers followed by a flexible data member, hence 32
bytes on an LP64 platform.  It is a multiple of `ALIGNMENT`. -/
def sizeofBlock : Nat := 32

/-- Modelled from the spec: the trim threshold (block.h's `TRIM_THRESHOLD`,
customarily `1 << 10`). -/
def TRIM_THRESHOLD : Nat := 1024

/-- Address of the global free-list sentinel node `FreeList` (a global in
the data segment, below the heap). -/
def sentinelAddr : Nat := 0

/-- The value a wild read returns; reachable executions never consult it. -/
def dummyBlock : Block := ⟨0, 0, 0, 0⟩

/-- Read the block header at an address (C pointer dereference). -/
def bget (st : Heap) (a : Nat) : Block := (storeFind st.store a).getD dummyBlock

def setBlk (st : Heap) (a : Nat) (b : Block) : Heap :=
  { st with store := storeSet st.store a b }

/-- Write the `capacity` field of the block at `a`. -/
def wcap (st : Heap) (a : Nat) (v : Nat) : Heap := setBlk st a { bget st a with capacity := v }

/-- Write the `size` field of the block at `a`. -/
def wsize (st : Heap) (a : Nat) (v : Nat) : Heap := setBlk st a { bget st a with size := v }

/-- Write the `prev` field of the block at `a`. -/
def wprev (st : Heap) (a : Nat) (v : Nat) : Heap := setBlk st a { bget st a with prev := v }

/-- Write the `next` field of the block at `a`. -/
def wnext (st : Heap) (a : Nat) (v : Nat) : Heap := setBlk st a { bget st a with next := v }

/-! ## block.c -/

/-- `block_allocate` (block.c): grow the heap by `sizeof(Block) + ALIGN(size)`
via sbrk (which returns the old break as the new block's address), then set
`capacity = ALIGN(size)`, `size = size` and self-link the block; bump
HEAP_SIZE, BLOCKS and GROWS.  The model heap is unbounded so the
`SBRK_FAILURE` early return is not taken. -/
def block_allocate (st : Heap) (size : Nat) : Nat × Heap :=
  let allocated := sizeofBlock + ALIGN size
  let addr := st.brk
  let blk : Block := { capacity := ALIGN size, size := size, prev := addr, next := addr }
  let c := st.counters
  (addr,
    { store := storeSet st.store addr blk,
      brk := st.brk + allocated,
      counters := { c with
        heapSize := c.heapSize + allocated,
        blocks := c.blocks + 1,
        grows := c.grows + 1 } })

/-- `block_release` (block.c): if `block->data + block->capacity == sbrk(0)`
and `block->capacity + sizeof(Block) > TRIM_THRESHOLD`, shrink the heap by
`sizeof(Block) + block->capacity`, update BLOCKS, SHRINKS and HEAP_SIZE and
return true; otherwise return false.  The model's shrink always succeeds,
and the released header leaves the store (its memory is beyond the break). -/
def block_release (st : Heap) (a : Nat) : Bool × Heap :=
  let b := bget st a
  if a + sizeofBlock + b.capacity = st.brk ∧ b.capacity + sizeofBlock > TRIM_THRESHOLD then
    let allocated := sizeofBlock + b.capacity
    let c := st.counters
    (true,
      { store := storeErase st.store a,
        brk := st.brk - allocated,
        counters := { c with
          blocks := c.blocks - 1,
          shrinks := c.shrinks + 1,
          heapSize := c.heapSize - allocated } })
  else (false, st)

/-- `block_detach` (block.c): if the pointer is non-null, read `prev` and
`next`, splice them together (`before->next = after; after->prev = before`),
then self-link the block; return the pointer. -/
def block_detach (st : Heap) (a? : Option Nat) : Option Nat × Heap :=
  match a? with
  | none => (none, st)
  | some a =>
    let before := (bget st a).prev
    let after := (bget st a).next
    let st1 := wnext st before after
    let st2 := wprev st1 after before
    let st3 := wnext st2 a a
    let st4 := wprev st3 a a
    (some a, st4)

/-- Physical adjacency as tested by `block_merge`:
`(Block *)(dst->data + dst->capacity) == src`, i.e. src's header starts
exactly where dst's payload ends. -/
def adjacent (st : Heap) (dst src : Nat) : Prop :=
  dst + sizeofBlock + (bget st dst).capacity = src

instance (st : Heap) (d s : Nat) : Decidable (adjacent st d s) := by
  unfold adjacent; infer_instance

/-- `block_merge` (block.c): if dst's payload end is exactly src's address,
do `dst->capacity += ALIGN(src->capacity + sizeof(Block))`, bump MERGES,
drop BLOCKS, and return true; otherwise return false with no writes. -/
def block_merge (st : Heap) (dst src : Nat) : Bool × Heap :=
  if dst + sizeofBlock + (bget st dst).capacity = src then
    let st1 := wcap st dst ((bget st dst).capacity + ALIGN ((bget st src).capacity + sizeofBlock))
    let c := st1.counters
    (true, { st1 with counters := { c with merges := c.merges + 1, blocks := c.blocks - 1 } })
  else (false, st)

/-- `block_split` (block.c): if `ALIGN(size) + sizeof(Block) < capacity`,
create a new block at `block->data + ALIGN(size)` whose capacity and size
are both `capacity - ALIGN(size) - sizeof(Block)`, linked between `block`
and `block->next`; then `block->next->prev = new_block`, shrink `block` to
`capacity = ALIGN(size)`, `size = size`, `next = new_block`, and bump SPLITS
and BLOCKS.  Always return the original block. -/
def block_split (st : Heap) (a : Nat) (size : Nat) : Nat × Heap :=
  let b := bget st a
  if ALIGN size + sizeofBlock < b.capacity then
    let na := a + sizeofBlock + ALIGN size
    let newCap := b.capacity - ALIGN size - sizeofBlock
    let st1 := setBlk st na { capacity := newCap, size := newCap, prev := a, next := b.next }
    let st2 := wprev st1 b.next na
    let st3 := wcap st2 a (ALIGN size)
    let st4 := wsize st3 a size
    let st5 := wnext st4 a na
    let c := st5.counters
    (a, { st5 with counters := { c with splits := c.splits + 1, blocks := c.blocks + 1 } })
  else (a, st)

/-! ## freelist.c

The C loops `for (curr = FreeList.next; curr != &FreeList; curr = curr->next)`
traverse the circular list starting from the sentinel's successor.  The walk
is modelled with fuel `store.length + 1`, enough to visit every distinct
member of a well-formed list and come back to the sentinel.  Until a search
or insert loop performs its (final) writes the state is unchanged, so the
snapshot produced by the walk agrees with the live traversal. -/

def walkFrom (st : Heap) : Nat → Nat → List (Nat × Block)
  | 0, _ => []
  | fuel + 1, a =>
    if a = sentinelAddr then []
    else
      match storeFind st.store a with
      | none => []
      | some b => (a, b) :: walkFrom st fuel b.next

/-- The members of the free list in traversal order, with their headers. -/
def freeCells (st : Heap) : List (Nat × Block) :=
  walkFrom st (st.store.length + 1) (bget st sentinelAddr).next

/-- Loop body of `free_list_search_ff`: return the first cell with
`capacity >= size`. -/
def ffLoop (size : Nat) : List (Nat × Block) → Option (Nat × Block)
  | [] => none
  | c :: rest => if size ≤ c.2.capacity then some c else ffLoop size rest

/-- `free_list_search_ff` (freelist.c): first fit; on a hit set the winner's
`size` field to the requested size and return it, else return NULL. -/
def free_list_search_ff (st : Heap) (size : Nat) : Option Nat × Heap :=
  match ffLoop size (freeCells st) with
  | some (a, b) => (some a, setBlk st a { b with size := size })
  | none => (none, st)

/-- Loop body of `free_list_search_bf`: thread the `smallest` pointer,
replacing it exactly when the current cell qualifies and either no candidate
exists yet or the current capacity is strictly smaller. -/
def bfLoop (size : Nat) : List (Nat × Block) → Option (Nat × Block) → Option (Nat × Block)
  | [], best => best
  | c :: rest, none =>
    bfLoop size rest (if size ≤ c.2.capacity then some c else none)
  | c :: rest, some s =>
    bfLoop size rest
      (if size ≤ c.2.capacity ∧ c.2.capacity < s.2.capacity then some c else some s)

/-- `free_list_search_bf` (freelist.c): best fit; scan the whole list, then
on a hit set the winner's `size` field and return it. -/
def free_list_search_bf (st : Heap) (size : Nat) : Option Nat × Heap :=
  match bfLoop size (freeCells st) none with
  | some (a, b) => (some a, setBlk st a { b with size := size })
  | none => (none, st)

/-- Loop body of `free_list_search_wf`: thread the `largest` pointer,
replacing it exactly when the current cell qualifies and either no candidate
exists yet or the current capacity is strictly larger. -/
def wfLoop (size : Nat) : List (Nat × Block) → Option (Nat × Block) → Option (Nat × Block)
  | [], best => best
  | c :: rest, none =>
    wfLoop size rest (if size ≤ c.2.capacity then some c else none)
  | c :: rest, some s =>
    wfLoop size rest
      (if size ≤ c.2.capacity ∧ s.2.capacity < c.2.capacity then some c else some s)

/-- `free_list_search_wf` (freelist.c): worst fit; scan the whole list, then
on a hit set the winner's `size` field and return it. -/
def free_list_search_wf (st : Heap) (size : Nat) : Option Nat × Heap :=
  match wfLoop size (freeCells st) none with
  | some (a, b) => (some a, setBlk st a { b with size := size })
  | none => (none, st)

inductive Strategy where
  | ff
  | bf
  | wf
deriving DecidableEq

/-- `free_list_search` (freelist.c): dispatch on the compile-time FIT
setting, then bump REUSES on a hit. -/
def free_list_search (st : Heap) (strat : Strategy) (size : Nat) : Option Nat × Heap :=
  let r :=
    match strat with
    | .ff => free_list_search_ff st size
    | .bf => free_list_search_bf st size
    | .wf => free_list_search_wf st size
  match r with
  | (some a, st') =>
    let c := st'.counters
    (some a, { st' with counters := { c with reuses := c.reuses + 1 } })
  | (none, st') => (none, st')

/-- Splice performed by `free_list_insert` when `block_merge(block, curr)`
succeeds, one store write per C assignment in source order:
`block->prev = curr->prev; block->next = curr->next;
curr->prev->next = block; curr->next->prev = block;`
with `curr`'s fields re-read from the live state at each line. -/
def spliceMerged (st : Heap) (b curr : Nat) : Heap :=
  let st1 := wprev st b (bget st curr).prev
  let st2 := wnext st1 b (bget st1 curr).next
  let st3 := wnext st2 (bget st2 curr).prev b
  let st4 := wprev st3 (bget st3 curr).next b
  st4

/-- Loop of `free_list_insert` over the free-list members: try
`block_merge(block, curr)` (splice and stop on success), then
`block_merge(curr, block)` (stop on success), else continue; when the scan
ends, append the block between the current tail (`FreeList.prev`) and the
sentinel. -/
def insertLoop (st : Heap) (b : Nat) : List (Nat × Block) → Heap
  | [] =>
    let tail := (bget st sentinelAddr).prev
    let st1 := wnext st tail b
    let st2 := wprev st1 sentinelAddr b
    let st3 := wnext st2 b sentinelAddr
    let st4 := wprev st3 b tail
    st4
  | (ca, _) :: rest =>
    match block_merge st b ca with
    | (true, st') => spliceMerged st' b ca
    | (false, st') =>
      match block_merge st' ca b with
      | (true, st'') => st''
      | (false, st''') => insertLoop st''' b rest

/-- `free_list_insert` (freelist.c). -/
def free_list_insert (st : Heap) (b : Nat) : Heap :=
  insertLoop st b (freeCells st)

/-- `free_list_length` (freelist.c): count the members by walking from the
sentinel's successor back to the sentinel. -/
def free_list_length (st : Heap) : Nat :=
  (freeCells st).length

/-! ## The operation alphabet for whole-trace claims -/

inductive Op where
  | alloc (size : Nat)
  | search (strat : Strategy) (size : Nat)
  | insert (a : Nat)
  | split (a : Nat) (size : Nat)
  | merge (dst src : Nat)
  | detach (a : Option Nat)
deriving DecidableEq

/-- One core operation, return value discarded. -/
def step (st : Heap) : Op → Heap
  | .alloc s => (block_allocate st s).2
  | .search strat s => (free_list_search st strat s).2
  | .insert a => free_list_insert st a
  | .split a s => (block_split st a s).2
  | .merge d s => (block_merge st d s).2
  | .detach a => (block_detach st a).2

/-- A legal invocation: per the data model (spec section 3, invariant 5) the
sentinel is never split; every other call shape is unconstrained. -/
def legalOp : Op → Bool
  | .split a _ => decide (a ≠ sentinelAddr)
  | _ => true

/-- The sentinel `Block FreeList = {-1, -1, &FreeList, &FreeList}`: the two
`size_t` fields hold `(size_t)(-1)` and the links are self-referential. -/
def sentinelBlock : Block :=
  { capacity := 2 ^ 64 - 1, size := 2 ^ 64 - 1, prev := sentinelAddr, next := sentinelAddr }

def zeroCounters : Counters := ⟨0, 0, 0, 0, 0, 0, 0⟩

/-- The initial state: empty free list (self-linked sentinel in the data
segment at address 0), heap break above it, zeroed counters. -/
def initialHeap : Heap :=
  { store := [(sentinelAddr, sentinelBlock)], brk := 4096, counters := zeroCounters }

/-- Run a trace of core operations from a state. -/
def run (st : Heap) (ops : List Op) : Heap :=
  ops.foldl step st

/-! ## Concrete states used to instantiate the theorems -/

/-- A heap with two physically adjacent free-standing blocks: payload of the
block at 4096 (capacity 64) ends exactly at 4192, where the second block
(capacity 32) starts. -/
def mergeDemo : Heap :=
  { store := [(sentinelAddr, sentinelBlock),
      (4096, ⟨64, 48, 4096, 4096⟩), (4192, ⟨32, 10, 4192, 4192⟩)],
    brk := 4256, counters := zeroCounters }

/-- A heap whose free list holds blocks of capacity 10, 30 and 20, in that
list order (the fit-strategy scenario of the spec). -/
def fitDemo : Heap :=
  { store :=
      [(sentinelAddr, { sentinelBlock with next := 4096, prev := 4300 }),
       (4096, ⟨10, 10, sentinelAddr, 4200⟩),
       (4200, ⟨30, 30, 4096, 4300⟩),
       (4300, ⟨20, 20, 4200, sentinelAddr⟩)],
    brk := 8192, counters := zeroCounters }

/-- A heap whose free list holds a single block of capacity 96 at 4096. -/
def splitDemo : Heap :=
  { store := [(sentinelAddr, { sentinelBlock with prev := 4096, next := 4096 }),
      (4096, ⟨96, 40, sentinelAddr, sentinelAddr⟩)],
    brk := 4224, counters := zeroCounters }

/-- A heap whose single block at 4096 does not end at the heap boundary. -/
def releaseDemo : Heap :=
  { store := [(sentinelAddr, sentinelBlock), (4096, ⟨2000, 2000, 4096, 4096⟩)],
    brk := 10000, counters := zeroCounters }

/-- A heap whose free list holds one block at 4200, with a detached block at
4096 whose payload end is exactly 4200 (so inserting it coalesces). -/
def insertDemo : Heap :=
  { store := [(sentinelAddr, { sentinelBlock with next := 4200, prev := 4200 }),
      (4200, ⟨48, 48, sentinelAddr, sentinelAddr⟩),
      (4096, ⟨72, 72, 4096, 4096⟩)],
    brk := 4280, counters := zeroCounters }


/-- Frame property of a search result `r` against the pre-state `st`: a miss
leaves the state untouched, and a hit writes exactly the returned block's
`size` field, leaving its other fields and every other block unchanged. -/
def searchFrameOK (st : Heap) (size : Nat) (r : Option Nat × Heap) : Prop :=
  (r.1 = none → r.2 = st) ∧
  (∀ a, r.1 = some a →
    (bget r.2 a).size = size ∧
    (bget r.2 a).capacity = (bget st a).capacity ∧
    (bget r.2 a).prev = (bget st a).prev ∧
    (bget r.2 a).next = (bget st a).next ∧
    ∀ x, x ≠ a → bget r.2 x = bget st x)

/-- The free list's members are exactly `ms`, threaded by `next` pointers
starting at address `a` and ending back at the sentinel. -/
def chainAt (st : Heap) : Nat → List Nat → Prop
  | a, [] => a = sentinelAddr
  | a, m :: ms => a = m ∧ (storeFind st.store m).isSome = true ∧ m ≠ sentinelAddr ∧
      chainAt st (bget st m).next ms

/-- The `prev` pointers mirror the `next` chain: walking `ms`, each member's
`prev` is its predecessor (`p` for the first). -/
def pchainAt (st : Heap) : Nat → List Nat → Prop
  | _, [] => True
  | p, m :: ms => (bget st m).prev = p ∧ pchainAt st m ms

/-- Well-formed free list with member list `ms` (in traversal order). -/
def goodChain (st : Heap) (ms : List Nat) : Prop :=
  chainAt st (bget st sentinelAddr).next ms ∧
  pchainAt st sentinelAddr ms ∧
  (bget st sentinelAddr).prev = ms.getLastD sentinelAddr ∧
  ms.Nodup ∧
  (storeFind st.store sentinelAddr).isSome = true

def insertTwoDemo : Heap :=
  { store := [(sentinelAddr, sentinelBlock),
      (4096, ⟨24, 24, 4096, 4096⟩), (4200, ⟨40, 40, 4200, 4200⟩)],
    brk := 4280, counters := zeroCounters }

/-- The whole-store invariant: every block other than the sentinel has
`size <= capacity` and an `ALIGNMENT`-aligned capacity. -/
def Inv (st : Heap) : Prop :=
  ∀ x, x ≠ sentinelAddr →
    (bget st x).size ≤ (bget st x).capacity ∧ ALIGNMENT ∣ (bget st x).capacity

/-- A sample trace of core operations used to instantiate the invariant
theorem: two allocations, a coalescing pair of inserts, a split, a best-fit
search, a detach and a merge. -/
def demoOps : List Op :=
  [.alloc 24, .alloc 40, .insert 4096, .insert 4152, .split 4096 8,
   .search .bf 10, .detach (some 4136), .merge 4096 4152]


/-! ## Store lemmas -/

theorem storeFind_set (s : Store) (a : Nat) (b : Block) (x : Nat) :
    storeFind (storeSet s a b) x = if a = x then some b else storeFind s x := by
  induction s with
  | nil => simp [storeSet, storeFind]
  | cons hd tl ih =>
    obtain ⟨a', b'⟩ := hd
    by_cases h : a' = a
    · subst h
      by_cases hx : a' = x <;> simp [storeSet, storeFind, hx]
    · by_cases hx : a' = x
      · subst hx
        have hax : ¬ a = a' := fun hh => h hh.symm
        simp [storeSet, storeFind, h, hax]
      · simp [storeSet, storeFind, h, hx, ih]

theorem bget_set (st : Heap) (a : Nat) (b : Block) (x : Nat) :
    bget (setBlk st a b) x = if a = x then b else bget st x := by
  unfold bget setBlk
  simp only [storeFind_set]
  by_cases h : a = x <;> simp [h]

@[simp] theorem setBlk_brk (st : Heap) (a : Nat) (b : Block) :
    (setBlk st a b).brk = st.brk := rfl

@[simp] theorem setBlk_counters (st : Heap) (a : Nat) (b : Block) :
    (setBlk st a b).counters = st.counters := rfl

theorem storeSet_self (s : Store) (a : Nat) (b : Block) (h : storeFind s a = some b) :
    storeSet s a b = s := by
  induction s with
  | nil => simp [storeFind] at h
  | cons hd tl ih =>
    obtain ⟨a', b'⟩ := hd
    by_cases hh : a' = a
    · subst hh
      simp [storeFind] at h
      simp [storeSet, h]
    · simp [storeFind, hh] at h
      simp [storeSet, hh, ih h]

theorem storeSet_length (s : Store) (a : Nat) (b : Block)
    (h : (storeFind s a).isSome) : (storeSet s a b).length = s.length := by
  induction s with
  | nil => simp [storeFind] at h
  | cons hd tl ih =>
    obtain ⟨a', b'⟩ := hd
    by_cases hh : a' = a
    · simp [storeSet, hh]
    · simp [storeFind, hh] at h
      simp [storeSet, hh, ih h]

theorem storeSet_keys (s : Store) (a : Nat) (b : Block)
    (h : (storeFind s a).isSome) :
    (storeSet s a b).map Prod.fst = s.map Prod.fst := by
  induction s with
  | nil => simp [storeFind] at h
  | cons hd tl ih =>
    obtain ⟨a', b'⟩ := hd
    by_cases hh : a' = a
    · subst hh
      simp [storeSet]
    · simp [storeFind, hh] at h
      simp [storeSet, hh, ih h]

/-! ## ALIGN lemmas -/

theorem le_ALIGN (s : Nat) : s ≤ ALIGN s := by
  unfold ALIGN ALIGNMENT
  have h := Nat.div_add_mod (s + 7) 8
  have h2 : (s + 7) % 8 < 8 := Nat.mod_lt _ (by norm_num)
  omega

theorem ALIGN_dvd (s : Nat) : ALIGNMENT ∣ ALIGN s := by
  unfold ALIGN
  exact Dvd.intro _ (Nat.mul_comm _ _)

theorem dvd_ALIGN_eq (c : Nat) (h : ALIGNMENT ∣ c) : ALIGN c = c := by
  unfold ALIGN ALIGNMENT at *
  obtain ⟨j, rfl⟩ := h
  have : (8 * j + 7) / 8 = j := by
    rw [Nat.add_comm, Nat.add_mul_div_left _ _ (by norm_num : 0 < 8)]
    norm_num
  rw [this, Nat.mul_comm]

theorem ALIGN_add_of_dvd (c k : Nat) (h : ALIGNMENT ∣ k) :
    ALIGN (c + k) = ALIGN c + k := by
  unfold ALIGN ALIGNMENT at *
  obtain ⟨j, rfl⟩ := h
  have : c + 8 * j + 7 = (c + 7) + j * 8 := by ring
  rw [this, Nat.add_mul_div_right _ _ (by norm_num : 0 < 8)]
  ring

theorem dvd_sizeofBlock : ALIGNMENT ∣ sizeofBlock := by decide

/-! ## Walk and loop lemmas -/

theorem walkFrom_mem (st : Heap) (fuel : Nat) (a : Nat) (c : Nat × Block)
    (h : c ∈ walkFrom st fuel a) :
    storeFind st.store c.1 = some c.2 ∧ c.1 ≠ sentinelAddr := by
  induction fuel generalizing a with
  | zero => simp [walkFrom] at h
  | succ fuel ih =>
    unfold walkFrom at h
    by_cases hs : a = sentinelAddr
    · simp [hs] at h
    · simp only [if_neg hs] at h
      cases hf : storeFind st.store a with
      | none => rw [hf] at h; simp at h
      | some b =>
        rw [hf] at h
        simp only [List.mem_cons] at h
        rcases h with h | h
        · subst h; exact ⟨hf, hs⟩
        · exact ih _ h

theorem freeCells_mem (st : Heap) (c : Nat × Block) (h : c ∈ freeCells st) :
    storeFind st.store c.1 = some c.2 ∧ c.1 ≠ sentinelAddr :=
  walkFrom_mem st _ _ c h

theorem bget_eq_of_find (st : Heap) (a : Nat) (b : Block)
    (h : storeFind st.store a = some b) : bget st a = b := by
  unfold bget
  rw [h]
  rfl

theorem setBlk_eta (st : Heap) (a : Nat) (blk : Block)
    (h : storeFind st.store a = some blk) : setBlk st a blk = st := by
  unfold setBlk
  rw [storeSet_self _ _ _ h]

@[simp] theorem bget_setCounters (st : Heap) (c : Counters) (x : Nat) :
    bget { st with counters := c } x = bget st x := rfl

@[simp] theorem bget_mk (s : Store) (k : Nat) (c : Counters) (x : Nat) :
    bget { store := s, brk := k, counters := c } x = (storeFind s x).getD dummyBlock := rfl

@[simp] theorem setBlk_store (st : Heap) (a : Nat) (b : Block) :
    (setBlk st a b).store = storeSet st.store a b := rfl

theorem sizeofBlock_eq : sizeofBlock = 32 := rfl

/-! ## Claim C1: merge succeeds iff physically adjacent, capacity formula,
size unchanged, byte conservation -/

/-- Claim C1: `block_merge dst src` succeeds iff dst's payload end is
exactly src's address; on success dst's capacity becomes its old capacity
plus `ALIGN(src.capacity) + sizeof(Block)` while its `size` field is
unchanged, and, for a src whose capacity is aligned (data-model invariant 1),
the total addressable bytes (header + capacity) of the two original blocks
equal the merged block's total bytes. -/
theorem claim_C1 (st : Heap) (dst src : Nat) :
    ((block_merge st dst src).1 = true ↔ adjacent st dst src) ∧
    (adjacent st dst src →
      (bget (block_merge st dst src).2 dst).capacity
          = (bget st dst).capacity + ALIGN (bget st src).capacity + sizeofBlock ∧
      (bget (block_merge st dst src).2 dst).size = (bget st dst).size) ∧
    (adjacent st dst src → ALIGNMENT ∣ (bget st src).capacity →
      (sizeofBlock + (bget st dst).capacity) + (sizeofBlock + (bget st src).capacity)
          = sizeofBlock + (bget (block_merge st dst src).2 dst).capacity) := by
  unfold adjacent
  by_cases h : dst + sizeofBlock + (bget st dst).capacity = src
  · refine ⟨by simp [block_merge, h], fun _ => ?_, fun _ hdvd => ?_⟩
    · unfold block_merge
      rw [if_pos h]
      constructor
      · simp [wcap, bget_mk, setBlk_store, storeFind_set,
          ALIGN_add_of_dvd _ _ dvd_sizeofBlock]
        omega
      · simp [wcap, bget_mk, setBlk_store, storeFind_set]
    · have he := dvd_ALIGN_eq _ hdvd
      unfold block_merge
      rw [if_pos h]
      simp [wcap, bget_mk, setBlk_store, storeFind_set,
        ALIGN_add_of_dvd _ _ dvd_sizeofBlock, he]
      have h32 := sizeofBlock_eq
      omega
  · exact ⟨by simp [block_merge, h], fun hadj => absurd hadj h, fun hadj _ => absurd hadj h⟩

/-- Claim C1 witness: the two adjacent blocks of `mergeDemo` (capacities 64
and 32, the latter aligned) merge with the stated capacity and byte
conservation. -/
theorem claim_C1_witness :
    adjacent mergeDemo 4096 4192 ∧ ALIGNMENT ∣ (bget mergeDemo 4192).capacity ∧
    (bget (block_merge mergeDemo 4096 4192).2 4096).capacity
        = (bget mergeDemo 4096).capacity + ALIGN (bget mergeDemo 4192).capacity + sizeofBlock ∧
    (sizeofBlock + (bget mergeDemo 4096).capacity) + (sizeofBlock + (bget mergeDemo 4192).capacity)
        = sizeofBlock + (bget (block_merge mergeDemo 4096 4192).2 4096).capacity :=
  ⟨by decide, by decide,
    ((claim_C1 mergeDemo 4096 4192).2.1 (by decide)).1,
    (claim_C1 mergeDemo 4096 4192).2.2 (by decide) (by decide)⟩

/-! ## Claim C2: split arithmetic, splice of the remainder, identity
when the condition fails, always returns the original block -/

/-- Claim C2: when `ALIGN(s) + sizeof(Block) < capacity`, `block_split`
leaves the original block with capacity `ALIGN(s)` and size `s`, creates the
remainder at `block.data + ALIGN(s)` with capacity and size both
`capacity - ALIGN(s) - sizeof(Block)` (so `ALIGN(s) + sizeof(Block) +
remainder capacity = capacity`), and splices the remainder directly after
the original block; otherwise the state is unchanged.  In every case the
returned pointer is the original block. -/
theorem claim_C2 (st : Heap) (a s : Nat) :
    ((block_split st a s).1 = a) ∧
    (¬ ALIGN s + sizeofBlock < (bget st a).capacity → block_split st a s = (a, st)) ∧
    (ALIGN s + sizeofBlock < (bget st a).capacity →
     (bget st a).next ≠ a + sizeofBlock + ALIGN s →
      (bget (block_split st a s).2 a).capacity = ALIGN s ∧
      (bget (block_split st a s).2 a).size = s ∧
      (bget (block_split st a s).2 (a + sizeofBlock + ALIGN s)).capacity
          = (bget st a).capacity - ALIGN s - sizeofBlock ∧
      (bget (block_split st a s).2 (a + sizeofBlock + ALIGN s)).size
          = (bget st a).capacity - ALIGN s - sizeofBlock ∧
      ALIGN s + sizeofBlock + (bget (block_split st a s).2 (a + sizeofBlock + ALIGN s)).capacity
          = (bget st a).capacity ∧
      (bget (block_split st a s).2 a).next = a + sizeofBlock + ALIGN s ∧
      (bget (block_split st a s).2 (a + sizeofBlock + ALIGN s)).prev = a ∧
      (bget (block_split st a s).2 (a + sizeofBlock + ALIGN s)).next = (bget st a).next ∧
      (bget (block_split st a s).2 ((bget st a).next)).prev = a + sizeofBlock + ALIGN s) := by
  refine ⟨?_, ?_, fun h hne => ?_⟩
  · simp only [block_split]
    split <;> rfl
  · intro h
    simp only [block_split]
    rw [if_neg h]
  · have h32 := sizeofBlock_eq
    simp only [block_split]
    rw [if_pos h]
    simp only [wprev, wcap, wsize, wnext, bget_setCounters, bget_set]
    refine ⟨?_, ?_, ?_, ?_, ?_, ?_, ?_, ?_, ?_⟩ <;>
      (split_ifs <;> first | rfl | omega | (dsimp only; omega))

/-- Claim C2 witness: splitting the capacity-96 block of `splitDemo` with
request 8 produces a first block of capacity `ALIGN 8` and a remainder of
capacity 96 - 8 - 32 = 56, conserving the original capacity. -/
theorem claim_C2_witness :
    ALIGN 8 + sizeofBlock < (bget splitDemo 4096).capacity ∧
    (bget splitDemo 4096).next ≠ 4096 + sizeofBlock + ALIGN 8 ∧
    (bget (block_split splitDemo 4096 8).2 4096).capacity = ALIGN 8 ∧
    (bget (block_split splitDemo 4096 8).2 (4096 + sizeofBlock + ALIGN 8)).capacity
        = (bget splitDemo 4096).capacity - ALIGN 8 - sizeofBlock ∧
    ALIGN 8 + sizeofBlock
        + (bget (block_split splitDemo 4096 8).2 (4096 + sizeofBlock + ALIGN 8)).capacity
        = (bget splitDemo 4096).capacity :=
  ⟨by decide, by decide,
    ((claim_C2 splitDemo 4096 8).2.2 (by decide) (by decide)).1,
    ((claim_C2 splitDemo 4096 8).2.2 (by decide) (by decide)).2.2.1,
    ((claim_C2 splitDemo 4096 8).2.2 (by decide) (by decide)).2.2.2.2.1⟩

/-! ## Claim C6: release succeeds only for the heap-trailing block above
the trim threshold -/

/-- Claim C6: `block_release` returns true exactly when the block's payload
end equals the current heap boundary and `sizeof(Block) + capacity` exceeds
the trim threshold (the model's shrink always succeeds); in particular a
block whose payload end is not the boundary always gets false, regardless
of capacity. -/
theorem claim_C6 (st : Heap) (a : Nat) :
    ((block_release st a).1 = true ↔
      a + sizeofBlock + (bget st a).capacity = st.brk ∧
      (bget st a).capacity + sizeofBlock > TRIM_THRESHOLD) ∧
    (a + sizeofBlock + (bget st a).capacity ≠ st.brk → (block_release st a).1 = false) := by
  have hiff : (block_release st a).1 = true ↔
      (a + sizeofBlock + (bget st a).capacity = st.brk ∧
        (bget st a).capacity + sizeofBlock > TRIM_THRESHOLD) := by
    simp only [block_release]
    split
    next hc => simpa using hc
    next hc => simpa using hc
  refine ⟨hiff, fun h => ?_⟩
  cases hb : (block_release st a).1
  · rfl
  · exact absurd (hiff.mp hb).1 h

/-- Claim C6 witness: the block of `releaseDemo` has large capacity but does
not end at the boundary, so release returns false. -/
theorem claim_C6_witness :
    4096 + sizeofBlock + (bget releaseDemo 4096).capacity ≠ releaseDemo.brk ∧
    (block_release releaseDemo 4096).1 = false :=
  ⟨by decide, (claim_C6 releaseDemo 4096).2 (by decide)⟩

/-! ## Claim C8: detach splices neighbors, self-links, idempotent,
null-safe -/

/-- Claim C8: detaching a listed block splices its neighbors together and
self-links it while every block other than it and its two neighbors is
untouched; detaching an already self-linked block is a complete no-op; and
detach of a null pointer returns null with no change. -/
theorem claim_C8 (st : Heap) :
    (block_detach st none = (none, st)) ∧
    (∀ a, (bget st a).prev ≠ a → (bget st a).next ≠ a →
      (block_detach st (some a)).1 = some a ∧
      (bget (block_detach st (some a)).2 ((bget st a).prev)).next = (bget st a).next ∧
      (bget (block_detach st (some a)).2 ((bget st a).next)).prev = (bget st a).prev ∧
      (bget (block_detach st (some a)).2 a).prev = a ∧
      (bget (block_detach st (some a)).2 a).next = a ∧
      (∀ x, x ≠ a → x ≠ (bget st a).prev → x ≠ (bget st a).next →
        bget (block_detach st (some a)).2 x = bget st x)) ∧
    (∀ a blk, storeFind st.store a = some blk → blk.prev = a → blk.next = a →
      block_detach st (some a) = (some a, st)) := by
  refine ⟨rfl, fun a hp hn => ⟨rfl, ?_, ?_, ?_, ?_, ?_⟩, fun a blk hfind hp hn => ?_⟩
  · simp only [block_detach, wnext, wprev, bget_set]
    split_ifs <;> first | rfl | omega
  · simp only [block_detach, wnext, wprev, bget_set]
    split_ifs <;> first | rfl | omega
  · simp only [block_detach, wnext, wprev, bget_set]
    split_ifs <;> first | rfl | omega
  · simp only [block_detach, wnext, wprev, bget_set]
    split_ifs <;> first | rfl | omega
  · intro x hxa hxp hxn
    simp only [block_detach, wnext, wprev, bget_set]
    split_ifs <;> first | rfl | omega
  · have hba : bget st a = blk := bget_eq_of_find st a blk hfind
    have e1 : wnext st a a = st := by
      unfold wnext
      have hb : ({ bget st a with next := a } : Block) = blk := by rw [hba, ← hn]
      rw [hb]
      exact setBlk_eta st a blk hfind
    have e2 : wprev st a a = st := by
      unfold wprev
      have hb : ({ bget st a with prev := a } : Block) = blk := by rw [hba, ← hp]
      rw [hb]
      exact setBlk_eta st a blk hfind
    show (some a,
      wprev (wnext (wprev (wnext st (bget st a).prev (bget st a).next)
        (bget st a).next (bget st a).prev) a a) a a) = (some a, st)
    rw [hba, hp, hn, e1, e2, e1, e2]

/-- Claim C8 witness: detaching the middle block of `fitDemo` splices its
neighbors, and detaching the self-linked block at 4096 of `mergeDemo` is a
no-op. -/
theorem claim_C8_witness :
    ((bget fitDemo 4200).prev ≠ 4200 ∧ (bget fitDemo 4200).next ≠ 4200) ∧
    (bget (block_detach fitDemo (some 4200)).2 ((bget fitDemo 4200).prev)).next
        = (bget fitDemo 4200).next ∧
    (bget (block_detach fitDemo (some 4200)).2 4200).prev = 4200 ∧
    block_detach mergeDemo (some 4096) = (some 4096, mergeDemo) :=
  ⟨⟨by decide, by decide⟩,
    ((claim_C8 fitDemo).2.1 4200 (by decide) (by decide)).2.1,
    ((claim_C8 fitDemo).2.1 4200 (by decide) (by decide)).2.2.2.1,
    (claim_C8 mergeDemo).2.2 4096 ⟨64, 48, 4096, 4096⟩ (by decide) (by decide) (by decide)⟩

/-! ## Claim C9: failed merge changes nothing; successful merge never
writes src -/

/-- Claim C9: when the two blocks are not physically adjacent `block_merge`
returns false and the whole state — every field of both blocks and every
counter — is unchanged; and even on success no block other than dst (in
particular src) is modified. -/
theorem claim_C9 (st : Heap) (dst src : Nat) :
    (¬ adjacent st dst src → block_merge st dst src = (false, st)) ∧
    (adjacent st dst src →
      bget (block_merge st dst src).2 src = bget st src ∧
      ∀ x, x ≠ dst → bget (block_merge st dst src).2 x = bget st x) := by
  unfold adjacent
  constructor
  · intro h
    simp [block_merge, h]
  · intro h
    have hne : src ≠ dst := by
      have h32 := sizeofBlock_eq
      omega
    have hframe : ∀ x, x ≠ dst → bget (block_merge st dst src).2 x = bget st x := by
      intro x hx
      simp only [block_merge, h, if_pos, bget_setCounters, wcap]
      rw [bget_set, if_neg (fun hh => hx hh.symm)]
    exact ⟨hframe src hne, hframe⟩

/-- Claim C9 witness: merging the non-adjacent pair (4096, 5000) of
`mergeDemo` returns false with the state intact, and the successful merge of
the adjacent pair (4096, 4192) leaves src's header untouched. -/
theorem claim_C9_witness :
    ¬ adjacent mergeDemo 4096 5000 ∧
    block_merge mergeDemo 4096 5000 = (false, mergeDemo) ∧
    adjacent mergeDemo 4096 4192 ∧
    bget (block_merge mergeDemo 4096 4192).2 4192 = bget mergeDemo 4192 :=
  ⟨by decide, (claim_C9 mergeDemo 4096 5000).1 (by decide), by decide,
    ((claim_C9 mergeDemo 4096 4192).2 (by decide)).1⟩

/-! ## Claim C10: search frame — no link is modified, only the returned
block's size field is written -/

theorem ffLoop_some (size : Nat) (l : List (Nat × Block)) (c : Nat × Block)
    (h : ffLoop size l = some c) : c ∈ l ∧ size ≤ c.2.capacity := by
  induction l with
  | nil => simp [ffLoop] at h
  | cons hd tl ih =>
    unfold ffLoop at h
    by_cases hq : size ≤ hd.2.capacity
    · rw [if_pos hq] at h
      cases h
      exact ⟨List.mem_cons_self _ _, hq⟩
    · rw [if_neg hq] at h
      obtain ⟨hm, hc⟩ := ih h
      exact ⟨List.mem_cons_of_mem _ hm, hc⟩

theorem bfLoop_mem (size : Nat) (l : List (Nat × Block)) (acc : Option (Nat × Block))
    (c : Nat × Block) (h : bfLoop size l acc = some c) : c ∈ l ∨ acc = some c := by
  induction l generalizing acc with
  | nil => simp [bfLoop] at h; right; rw [h]
  | cons hd tl ih =>
    match acc with
    | none =>
      unfold bfLoop at h
      rcases ih _ h with hm | he
      · exact Or.inl (List.mem_cons_of_mem _ hm)
      · by_cases hq : size ≤ hd.2.capacity
        · rw [if_pos hq] at he
          cases he
          exact Or.inl (List.mem_cons_self _ _)
        · rw [if_neg hq] at he
          cases he
    | some s =>
      unfold bfLoop at h
      rcases ih _ h with hm | he
      · exact Or.inl (List.mem_cons_of_mem _ hm)
      · split_ifs at he
        · cases he
          exact Or.inl (List.mem_cons_self _ _)
        · exact Or.inr he

theorem wfLoop_mem (size : Nat) (l : List (Nat × Block)) (acc : Option (Nat × Block))
    (c : Nat × Block) (h : wfLoop size l acc = some c) : c ∈ l ∨ acc = some c := by
  induction l generalizing acc with
  | nil => simp [wfLoop] at h; right; rw [h]
  | cons hd tl ih =>
    match acc with
    | none =>
      unfold wfLoop at h
      rcases ih _ h with hm | he
      · exact Or.inl (List.mem_cons_of_mem _ hm)
      · by_cases hq : size ≤ hd.2.capacity
        · rw [if_pos hq] at he
          cases he
          exact Or.inl (List.mem_cons_self _ _)
        · rw [if_neg hq] at he
          cases he
    | some s =>
      unfold wfLoop at h
      rcases ih _ h with hm | he
      · exact Or.inl (List.mem_cons_of_mem _ hm)
      · split_ifs at he
        · cases he
          exact Or.inl (List.mem_cons_self _ _)
        · exact Or.inr he

theorem searchFrame_of_pick (st : Heap) (size : Nat)
    (pick : List (Nat × Block) → Option (Nat × Block))
    (hmem : ∀ c, pick (freeCells st) = some c → c ∈ freeCells st) :
    searchFrameOK st size
      (match pick (freeCells st) with
        | some (a, b) => (some a, setBlk st a { b with size := size })
        | none => (none, st)) := by
  cases hp : pick (freeCells st) with
  | none => exact ⟨fun _ => rfl, fun a ha => by simp at ha⟩
  | some c =>
    obtain ⟨a0, b0⟩ := c
    have hb0 : bget st a0 = b0 :=
      bget_eq_of_find st a0 b0 (freeCells_mem st (a0, b0) (hmem _ hp)).1
    refine ⟨fun hnone => by simp at hnone, fun a ha => ?_⟩
    have haa : a = a0 := by
      simp at ha
      omega
    subst haa
    have hmain : bget (setBlk st a { b0 with size := size }) a = { b0 with size := size } := by
      rw [bget_set, if_pos rfl]
    refine ⟨?_, ?_, ?_, ?_, ?_⟩
    · show (bget (setBlk st a { b0 with size := size }) a).size = size
      rw [hmain]
    · show (bget (setBlk st a { b0 with size := size }) a).capacity = (bget st a).capacity
      rw [hmain, hb0]
    · show (bget (setBlk st a { b0 with size := size }) a).prev = (bget st a).prev
      rw [hmain, hb0]
    · show (bget (setBlk st a { b0 with size := size }) a).next = (bget st a).next
      rw [hmain, hb0]
    · intro x hx
      show bget (setBlk st a { b0 with size := size }) x = bget st x
      rw [bget_set, if_neg (fun hh => hx hh.symm)]

/-- Claim C10: for every request size and each of the three fit strategies,
a miss leaves the whole state unchanged and a hit changes nothing except the
returned block's `size` field (its capacity and links, and every other
block, are untouched). -/
theorem claim_C10 (st : Heap) (size : Nat) :
    searchFrameOK st size (free_list_search_ff st size) ∧
    searchFrameOK st size (free_list_search_bf st size) ∧
    searchFrameOK st size (free_list_search_wf st size) := by
  refine ⟨?_, ?_, ?_⟩
  · exact searchFrame_of_pick st size (ffLoop size)
      (fun c hc => (ffLoop_some size _ c hc).1)
  · exact searchFrame_of_pick st size (fun l => bfLoop size l none)
      (fun c hc => (bfLoop_mem size _ none c hc).resolve_right (by simp))
  · exact searchFrame_of_pick st size (fun l => wfLoop size l none)
      (fun c hc => (wfLoop_mem size _ none c hc).resolve_right (by simp))

/-- Claim C10 witness: the first-fit hit on `fitDemo` for size 15 sets only
the winner's size field. -/
theorem claim_C10_witness :
    (free_list_search_ff fitDemo 15).1 = some 4200 ∧
    (bget (free_list_search_ff fitDemo 15).2 4200).size = 15 ∧
    (bget (free_list_search_ff fitDemo 15).2 4200).capacity = (bget fitDemo 4200).capacity :=
  ⟨by decide, ((claim_C10 fitDemo 15).1.2 4200 (by decide)).1,
    ((claim_C10 fitDemo 15).1.2 4200 (by decide)).2.1⟩

/-! ## Claim C4: fit-strategy scenario and general best/worst-fit
characterization -/

theorem bfLoop_acc_spec (size : Nat) (l : List (Nat × Block)) :
    ∀ s : Nat × Block, size ≤ s.2.capacity →
    ∃ r, bfLoop size l (some s) = some r ∧ size ≤ r.2.capacity ∧
      r.2.capacity ≤ s.2.capacity ∧
      (∀ c ∈ l, size ≤ c.2.capacity → r.2.capacity ≤ c.2.capacity) ∧
      (r = s ∨ ∃ pre post, l = pre ++ r :: post ∧ r.2.capacity < s.2.capacity ∧
        ∀ c ∈ pre, size ≤ c.2.capacity → r.2.capacity < c.2.capacity) := by
  induction l with
  | nil =>
    intro s hs
    exact ⟨s, rfl, hs, le_refl _, by simp, Or.inl rfl⟩
  | cons hd tl ih =>
    intro s hs
    show ∃ r, bfLoop size tl
        (if size ≤ hd.2.capacity ∧ hd.2.capacity < s.2.capacity then some hd else some s)
        = some r ∧ _
    by_cases hrep : size ≤ hd.2.capacity ∧ hd.2.capacity < s.2.capacity
    · rw [if_pos hrep]
      obtain ⟨r, heq, hqual, hle, hmin, hdisj⟩ := ih hd hrep.1
      refine ⟨r, heq, hqual, by omega, ?_, ?_⟩
      · intro c hc hqc
        rcases List.mem_cons.mp hc with hceq | hctl
        · subst hceq; omega
        · exact hmin c hctl hqc
      · rcases hdisj with rfl | ⟨pre, post, hdec, hlt, hpre⟩
        · exact Or.inr ⟨[], tl, rfl, hrep.2, by simp⟩
        · refine Or.inr ⟨hd :: pre, post, by rw [hdec, List.cons_append], by omega, ?_⟩
          intro c hc hqc
          rcases List.mem_cons.mp hc with hceq | hcpre
          · subst hceq; omega
          · exact hpre c hcpre hqc
    · rw [if_neg hrep]
      obtain ⟨r, heq, hqual, hle, hmin, hdisj⟩ := ih s hs
      have hhd : size ≤ hd.2.capacity → s.2.capacity ≤ hd.2.capacity := by
        intro hq
        by_contra hcon
        exact hrep ⟨hq, by omega⟩
      refine ⟨r, heq, hqual, hle, ?_, ?_⟩
      · intro c hc hqc
        rcases List.mem_cons.mp hc with hceq | hctl
        · subst hceq
          have := hhd hqc
          omega
        · exact hmin c hctl hqc
      · rcases hdisj with rfl | ⟨pre, post, hdec, hlt, hpre⟩
        · exact Or.inl rfl
        · refine Or.inr ⟨hd :: pre, post, by rw [hdec, List.cons_append], hlt, ?_⟩
          intro c hc hqc
          rcases List.mem_cons.mp hc with hceq | hcpre
          · subst hceq
            have := hhd hqc
            omega
          · exact hpre c hcpre hqc

theorem bfLoop_none_spec (size : Nat) (l : List (Nat × Block)) (r : Nat × Block)
    (h : bfLoop size l none = some r) :
    size ≤ r.2.capacity ∧
    (∀ c ∈ l, size ≤ c.2.capacity → r.2.capacity ≤ c.2.capacity) ∧
    ∃ pre post, l = pre ++ r :: post ∧
      ∀ c ∈ pre, size ≤ c.2.capacity → r.2.capacity < c.2.capacity := by
  induction l with
  | nil => simp [bfLoop] at h
  | cons hd tl ih =>
    unfold bfLoop at h
    by_cases hq : size ≤ hd.2.capacity
    · rw [if_pos hq] at h
      obtain ⟨r', heq, hqual, hle, hmin, hdisj⟩ := bfLoop_acc_spec size tl hd hq
      rw [heq] at h
      cases h
      refine ⟨hqual, ?_, ?_⟩
      · intro c hc hqc
        rcases List.mem_cons.mp hc with hceq | hctl
        · subst hceq; omega
        · exact hmin c hctl hqc
      · rcases hdisj with rfl | ⟨pre, post, hdec, hlt, hpre⟩
        · exact ⟨[], tl, rfl, by simp⟩
        · refine ⟨hd :: pre, post, by rw [hdec, List.cons_append], ?_⟩
          intro c hc hqc
          rcases List.mem_cons.mp hc with hceq | hcpre
          · subst hceq; omega
          · exact hpre c hcpre hqc
    · rw [if_neg hq] at h
      obtain ⟨hqual, hmin, pre, post, hdec, hpre⟩ := ih h
      refine ⟨hqual, ?_, hd :: pre, post, by rw [hdec, List.cons_append], ?_⟩
      · intro c hc hqc
        rcases List.mem_cons.mp hc with hceq | hctl
        · subst hceq; omega
        · exact hmin c hctl hqc
      · intro c hc hqc
        rcases List.mem_cons.mp hc with hceq | hcpre
        · subst hceq; omega
        · exact hpre c hcpre hqc

theorem wfLoop_acc_spec (size : Nat) (l : List (Nat × Block)) :
    ∀ s : Nat × Block, size ≤ s.2.capacity →
    ∃ r, wfLoop size l (some s) = some r ∧ size ≤ r.2.capacity ∧
      s.2.capacity ≤ r.2.capacity ∧
      (∀ c ∈ l, size ≤ c.2.capacity → c.2.capacity ≤ r.2.capacity) ∧
      (r = s ∨ ∃ pre post, l = pre ++ r :: post ∧ s.2.capacity < r.2.capacity ∧
        ∀ c ∈ pre, size ≤ c.2.capacity → c.2.capacity < r.2.capacity) := by
  induction l with
  | nil =>
    intro s hs
    exact ⟨s, rfl, hs, le_refl _, by simp, Or.inl rfl⟩
  | cons hd tl ih =>
    intro s hs
    show ∃ r, wfLoop size tl
        (if size ≤ hd.2.capacity ∧ s.2.capacity < hd.2.capacity then some hd else some s)
        = some r ∧ _
    by_cases hrep : size ≤ hd.2.capacity ∧ s.2.capacity < hd.2.capacity
    · rw [if_pos hrep]
      obtain ⟨r, heq, hqual, hle, hmin, hdisj⟩ := ih hd hrep.1
      refine ⟨r, heq, hqual, by omega, ?_, ?_⟩
      · intro c hc hqc
        rcases List.mem_cons.mp hc with hceq | hctl
        · subst hceq; omega
        · exact hmin c hctl hqc
      · rcases hdisj with rfl | ⟨pre, post, hdec, hlt, hpre⟩
        · exact Or.inr ⟨[], tl, rfl, hrep.2, by simp⟩
        · refine Or.inr ⟨hd :: pre, post, by rw [hdec, List.cons_append], by omega, ?_⟩
          intro c hc hqc
          rcases List.mem_cons.mp hc with hceq | hcpre
          · subst hceq; omega
          · exact hpre c hcpre hqc
    · rw [if_neg hrep]
      obtain ⟨r, heq, hqual, hle, hmin, hdisj⟩ := ih s hs
      have hhd : size ≤ hd.2.capacity → hd.2.capacity ≤ s.2.capacity := by
        intro hq
        by_contra hcon
        exact hrep ⟨hq, by omega⟩
      refine ⟨r, heq, hqual, hle, ?_, ?_⟩
      · intro c hc hqc
        rcases List.mem_cons.mp hc with hceq | hctl
        · subst hceq
          have := hhd hqc
          omega
        · exact hmin c hctl hqc
      · rcases hdisj with rfl | ⟨pre, post, hdec, hlt, hpre⟩
        · exact Or.inl rfl
        · refine Or.inr ⟨hd :: pre, post, by rw [hdec, List.cons_append], hlt, ?_⟩
          intro c hc hqc
          rcases List.mem_cons.mp hc with hceq | hcpre
          · subst hceq
            have := hhd hqc
            omega
          · exact hpre c hcpre hqc

theorem wfLoop_none_spec (size : Nat) (l : List (Nat × Block)) (r : Nat × Block)
    (h : wfLoop size l none = some r) :
    size ≤ r.2.capacity ∧
    (∀ c ∈ l, size ≤ c.2.capacity → c.2.capacity ≤ r.2.capacity) ∧
    ∃ pre post, l = pre ++ r :: post ∧
      ∀ c ∈ pre, size ≤ c.2.capacity → c.2.capacity < r.2.capacity := by
  induction l with
  | nil => simp [wfLoop] at h
  | cons hd tl ih =>
    unfold wfLoop at h
    by_cases hq : size ≤ hd.2.capacity
    · rw [if_pos hq] at h
      obtain ⟨r', heq, hqual, hle, hmin, hdisj⟩ := wfLoop_acc_spec size tl hd hq
      rw [heq] at h
      cases h
      refine ⟨hqual, ?_, ?_⟩
      · intro c hc hqc
        rcases List.mem_cons.mp hc with hceq | hctl
        · subst hceq; omega
        · exact hmin c hctl hqc
      · rcases hdisj with rfl | ⟨pre, post, hdec, hlt, hpre⟩
        · exact ⟨[], tl, rfl, by simp⟩
        · refine ⟨hd :: pre, post, by rw [hdec, List.cons_append], ?_⟩
          intro c hc hqc
          rcases List.mem_cons.mp hc with hceq | hcpre
          · subst hceq; omega
          · exact hpre c hcpre hqc
    · rw [if_neg hq] at h
      obtain ⟨hqual, hmin, pre, post, hdec, hpre⟩ := ih h
      refine ⟨hqual, ?_, hd :: pre, post, by rw [hdec, List.cons_append], ?_⟩
      · intro c hc hqc
        rcases List.mem_cons.mp hc with hceq | hctl
        · subst hceq; omega
        · exact hmin c hctl hqc
      · intro c hc hqc
        rcases List.mem_cons.mp hc with hceq | hcpre
        · subst hceq; omega
        · exact hpre c hcpre hqc

/-- Claim C4: on a free list holding capacities [10, 30, 20] in list order,
searching for 15 returns the capacity-30 block under first fit, the
capacity-20 block under best fit and the capacity-30 block under worst fit;
in general a best-fit hit is a qualifying member of minimal capacity and a
worst-fit hit one of maximal capacity, each the first-encountered among
ties (every earlier qualifying member is strictly worse). -/
theorem claim_C4 :
    ((free_list_search_ff fitDemo 15).1 = some 4200 ∧
     (free_list_search_bf fitDemo 15).1 = some 4300 ∧
     (free_list_search_wf fitDemo 15).1 = some 4200) ∧
    (∀ st size a, (free_list_search_bf st size).1 = some a →
      ∃ b pre post, freeCells st = pre ++ (a, b) :: post ∧ size ≤ b.capacity ∧
        (∀ c ∈ freeCells st, size ≤ c.2.capacity → b.capacity ≤ c.2.capacity) ∧
        (∀ c ∈ pre, size ≤ c.2.capacity → b.capacity < c.2.capacity)) ∧
    (∀ st size a, (free_list_search_wf st size).1 = some a →
      ∃ b pre post, freeCells st = pre ++ (a, b) :: post ∧ size ≤ b.capacity ∧
        (∀ c ∈ freeCells st, size ≤ c.2.capacity → c.2.capacity ≤ b.capacity) ∧
        (∀ c ∈ pre, size ≤ c.2.capacity → c.2.capacity < b.capacity)) := by
  refine ⟨⟨?_, ?_, ?_⟩, ?_, ?_⟩
  · decide
  · decide
  · decide
  · intro st size a h
    unfold free_list_search_bf at h
    cases hbl : bfLoop size (freeCells st) none with
    | none =>
      rw [hbl] at h
      simp at h
    | some c =>
      obtain ⟨a0, b0⟩ := c
      rw [hbl] at h
      simp at h
      subst h
      obtain ⟨hq, hmin, pre, post, hdec, hpre⟩ := bfLoop_none_spec size _ _ hbl
      exact ⟨b0, pre, post, hdec, hq, hmin, hpre⟩
  · intro st size a h
    unfold free_list_search_wf at h
    cases hbl : wfLoop size (freeCells st) none with
    | none =>
      rw [hbl] at h
      simp at h
    | some c =>
      obtain ⟨a0, b0⟩ := c
      rw [hbl] at h
      simp at h
      subst h
      obtain ⟨hq, hmin, pre, post, hdec, hpre⟩ := wfLoop_none_spec size _ _ hbl
      exact ⟨b0, pre, post, hdec, hq, hmin, hpre⟩

/-- Claim C4 witness: instantiation of the best-fit characterization on the
[10, 30, 20] scenario heap. -/
theorem claim_C4_witness :
    (free_list_search_bf fitDemo 15).1 = some 4300 ∧
    ∃ b pre post, freeCells fitDemo = pre ++ (4300, b) :: post ∧ 15 ≤ b.capacity ∧
      (∀ c ∈ freeCells fitDemo, 15 ≤ c.2.capacity → b.capacity ≤ c.2.capacity) ∧
      (∀ c ∈ pre, 15 ≤ c.2.capacity → b.capacity < c.2.capacity) := by
  refine ⟨?_, ?_⟩
  · decide
  · exact claim_C4.2.1 fitDemo 15 4300 (by decide)

/-! ## Claim C5: coalescing insert — first successful merge splices the
survivor into curr's position and stops; otherwise append at the tail -/

theorem block_merge_neg (st : Heap) (d s : Nat) (h : ¬ adjacent st d s) :
    block_merge st d s = (false, st) := by
  unfold adjacent at h
  unfold block_merge
  rw [if_neg h]

theorem block_merge_fst_pos (st : Heap) (d s : Nat) (h : adjacent st d s) :
    (block_merge st d s).1 = true := by
  unfold adjacent at h
  unfold block_merge
  rw [if_pos h]

theorem block_merge_pos_eq (st : Heap) (d s : Nat) (h : adjacent st d s) :
    block_merge st d s = (true, (block_merge st d s).2) := by
  have h1 := block_merge_fst_pos st d s h
  cases hp : block_merge st d s with
  | mk f s2 =>
    rw [hp] at h1
    simp at h1
    subst h1
    rfl

theorem bget_merge (st : Heap) (d s : Nat) (h : adjacent st d s) (x : Nat) :
    bget (block_merge st d s).2 x =
      if d = x then
        { bget st d with
          capacity := (bget st d).capacity + ALIGN ((bget st s).capacity + sizeofBlock) }
      else bget st x := by
  unfold adjacent at h
  unfold block_merge
  rw [if_pos h]
  dsimp only
  simp only [bget_setCounters]
  unfold wcap
  rw [bget_set]

theorem insertLoop_cons_none (st : Heap) (b ca : Nat) (cb : Block)
    (rest : List (Nat × Block)) (h1 : ¬ adjacent st b ca) (h2 : ¬ adjacent st ca b) :
    insertLoop st b ((ca, cb) :: rest) = insertLoop st b rest := by
  conv_lhs => rw [insertLoop]
  rw [block_merge_neg st b ca h1]
  dsimp only
  rw [block_merge_neg st ca b h2]

theorem insertLoop_cons_posA (st : Heap) (b ca : Nat) (cb : Block)
    (rest : List (Nat × Block)) (h : adjacent st b ca) :
    insertLoop st b ((ca, cb) :: rest) = spliceMerged (block_merge st b ca).2 b ca := by
  conv_lhs => rw [insertLoop]
  rw [block_merge_pos_eq st b ca h]

theorem insertLoop_cons_posB (st : Heap) (b ca : Nat) (cb : Block)
    (rest : List (Nat × Block)) (h1 : ¬ adjacent st b ca) (h2 : adjacent st ca b) :
    insertLoop st b ((ca, cb) :: rest) = (block_merge st ca b).2 := by
  conv_lhs => rw [insertLoop]
  rw [block_merge_neg st b ca h1]
  dsimp only
  rw [block_merge_pos_eq st ca b h2]

theorem insertLoop_skip (st : Heap) (b : Nat) (pre rest : List (Nat × Block))
    (hpre : ∀ c ∈ pre, ¬ adjacent st b c.1 ∧ ¬ adjacent st c.1 b) :
    insertLoop st b (pre ++ rest) = insertLoop st b rest := by
  induction pre with
  | nil => rfl
  | cons hd tl ih =>
    obtain ⟨ha1, ha2⟩ := hpre hd (List.mem_cons_self _ _)
    obtain ⟨ca, cb⟩ := hd
    rw [List.cons_append, insertLoop_cons_none st b ca cb _ ha1 ha2]
    exact ih (fun c hc => hpre c (List.mem_cons_of_mem _ hc))

theorem spliceMerged_facts (st1 : Heap) (b ca : Nat)
    (hbca : b ≠ ca) (hcpca : (bget st1 ca).prev ≠ ca)
    (hcpb : (bget st1 ca).prev ≠ b) (hcnb : (bget st1 ca).next ≠ b) :
    (bget (spliceMerged st1 b ca) b).prev = (bget st1 ca).prev ∧
    (bget (spliceMerged st1 b ca) b).next = (bget st1 ca).next ∧
    (bget (spliceMerged st1 b ca) ((bget st1 ca).prev)).next = b ∧
    (bget (spliceMerged st1 b ca) ((bget st1 ca).next)).prev = b ∧
    ∀ x, x ≠ b → x ≠ (bget st1 ca).prev → x ≠ (bget st1 ca).next →
      bget (spliceMerged st1 b ca) x = bget st1 x := by
  refine ⟨?_, ?_, ?_, ?_, ?_⟩
  · simp only [spliceMerged, wprev, wnext, bget_set]
    split_ifs <;> first | rfl | omega
  · simp only [spliceMerged, wprev, wnext, bget_set]
    split_ifs <;> first | rfl | omega
  · simp only [spliceMerged, wprev, wnext, bget_set]
    split_ifs <;> first | rfl | omega
  · simp only [spliceMerged, wprev, wnext, bget_set]
    split_ifs <;> first | rfl | omega
  · intro x hxb hxp hxn
    simp only [spliceMerged, wprev, wnext, bget_set]
    split_ifs <;> first | rfl | omega

theorem insertLoop_nil_facts (st : Heap) (b : Nat)
    (hb0 : b ≠ sentinelAddr) (htb : (bget st sentinelAddr).prev ≠ b) :
    (bget (insertLoop st b []) ((bget st sentinelAddr).prev)).next = b ∧
    (bget (insertLoop st b []) sentinelAddr).prev = b ∧
    (bget (insertLoop st b []) b).next = sentinelAddr ∧
    (bget (insertLoop st b []) b).prev = (bget st sentinelAddr).prev ∧
    ∀ x, x ≠ b → x ≠ (bget st sentinelAddr).prev → x ≠ sentinelAddr →
      bget (insertLoop st b []) x = bget st x := by
  refine ⟨?_, ?_, ?_, ?_, ?_⟩
  · simp only [insertLoop, wnext, wprev, bget_set]
    split_ifs <;> first | rfl | omega
  · simp only [insertLoop, wnext, wprev, bget_set]
    split_ifs <;> first | rfl | omega
  · simp only [insertLoop, wnext, wprev, bget_set]
    split_ifs <;> first | rfl | omega
  · simp only [insertLoop, wnext, wprev, bget_set]
    split_ifs <;> first | rfl | omega
  · intro x hxb hxt hx0
    simp only [insertLoop, wnext, wprev, bget_set]
    split_ifs <;> first | rfl | omega

/-- Claim C5: scanning the free list, the first member for which
`merge(block, curr)` succeeds makes the merged block take over curr's list
position (links to curr's former neighbors on both sides) and insertion
stops, leaving every block other than the merged one and those two
neighbors — including all not-yet-visited members — untouched; if instead
`merge(curr, block)` succeeds first, insertion stops with exactly the merge
effect; if no merge succeeds over the whole scan, the block is appended
between the old tail and the sentinel. -/
theorem claim_C5 (st : Heap) (b : Nat) :
    (∀ pre ca cb rest, freeCells st = pre ++ (ca, cb) :: rest →
      (∀ c ∈ pre, ¬ adjacent st b c.1 ∧ ¬ adjacent st c.1 b) →
      adjacent st b ca →
      b ≠ ca → (bget st ca).prev ≠ ca → (bget st ca).next ≠ ca →
      (bget st ca).prev ≠ b → (bget st ca).next ≠ b →
      (bget (free_list_insert st b) b).prev = (bget st ca).prev ∧
      (bget (free_list_insert st b) b).next = (bget st ca).next ∧
      (bget (free_list_insert st b) ((bget st ca).prev)).next = b ∧
      (bget (free_list_insert st b) ((bget st ca).next)).prev = b ∧
      (∀ x, x ≠ b → x ≠ (bget st ca).prev → x ≠ (bget st ca).next →
        bget (free_list_insert st b) x = bget st x)) ∧
    (∀ pre ca cb rest, freeCells st = pre ++ (ca, cb) :: rest →
      (∀ c ∈ pre, ¬ adjacent st b c.1 ∧ ¬ adjacent st c.1 b) →
      ¬ adjacent st b ca → adjacent st ca b →
      free_list_insert st b = (block_merge st ca b).2) ∧
    ((∀ c ∈ freeCells st, ¬ adjacent st b c.1 ∧ ¬ adjacent st c.1 b) →
      b ≠ sentinelAddr → (bget st sentinelAddr).prev ≠ b →
      (bget (free_list_insert st b) ((bget st sentinelAddr).prev)).next = b ∧
      (bget (free_list_insert st b) sentinelAddr).prev = b ∧
      (bget (free_list_insert st b) b).next = sentinelAddr ∧
      (bget (free_list_insert st b) b).prev = (bget st sentinelAddr).prev ∧
      (∀ x, x ≠ b → x ≠ (bget st sentinelAddr).prev → x ≠ sentinelAddr →
        bget (free_list_insert st b) x = bget st x)) := by
  refine ⟨?_, ?_, ?_⟩
  · intro pre ca cb rest hdec hpre hadj hbca hcpca hcnca hcpb hcnb
    have hins : free_list_insert st b = spliceMerged (block_merge st b ca).2 b ca := by
      unfold free_list_insert
      rw [hdec, insertLoop_skip st b pre _ hpre, insertLoop_cons_posA st b ca cb rest hadj]
    have hMca : bget (block_merge st b ca).2 ca = bget st ca := by
      rw [bget_merge st b ca hadj ca, if_neg hbca]
    have hfacts := spliceMerged_facts (block_merge st b ca).2 b ca hbca
      (by rw [hMca]; exact hcpca) (by rw [hMca]; exact hcpb) (by rw [hMca]; exact hcnb)
    rw [hMca] at hfacts
    obtain ⟨f1, f2, f3, f4, f5⟩ := hfacts
    rw [hins]
    refine ⟨f1, f2, f3, f4, ?_⟩
    intro x hxb hxp hxn
    rw [f5 x hxb hxp hxn, bget_merge st b ca hadj x, if_neg (fun hh => hxb hh.symm)]
  · intro pre ca cb rest hdec hpre hneg hadj
    unfold free_list_insert
    rw [hdec, insertLoop_skip st b pre _ hpre, insertLoop_cons_posB st b ca cb rest hneg hadj]
  · intro hall hb0 htb
    have hins : free_list_insert st b = insertLoop st b [] := by
      unfold free_list_insert
      conv_lhs => rw [← List.append_nil (freeCells st)]
      exact insertLoop_skip st b _ [] hall
    rw [hins]
    exact insertLoop_nil_facts st b hb0 htb

theorem claim_C5_witness :
    (freeCells insertDemo = [] ++ (4200, (⟨48, 48, 0, 0⟩ : Block)) :: []) ∧
    adjacent insertDemo 4096 4200 ∧
    (bget (free_list_insert insertDemo 4096) 4096).prev = (bget insertDemo 4200).prev ∧
    (bget (free_list_insert insertDemo 4096) ((bget insertDemo 4200).prev)).next = 4096 := by
  have hmain := (claim_C5 insertDemo 4096).1 [] 4200 ⟨48, 48, 0, 0⟩ []
    (by decide) (by simp) (by decide) (by decide) (by decide) (by decide)
    (by decide) (by decide)
  exact ⟨by decide, by decide, hmain.1, hmain.2.2.1⟩

/-! ## Claim C7: free-list length under non-adjacent and adjacent
insertions -/

/-- Claim C7 auxiliary lemmas are stated over `goodChain`, the well-formed
circular-list predicate, and culminate in the length theorem. -/
theorem storeFind_isSome_iff (s : Store) (a : Nat) :
    (storeFind s a).isSome = true ↔ a ∈ s.map Prod.fst := by
  induction s with
  | nil => simp [storeFind]
  | cons hd tl ih =>
    obtain ⟨a', b'⟩ := hd
    by_cases h : a' = a
    · subst h
      simp [storeFind]
    · simp only [storeFind, if_neg h, List.map_cons, List.mem_cons, ih]
      constructor
      · exact Or.inr
      · rintro (rfl | hm)
        · exact absurd rfl h
        · exact hm

theorem chainAt_mem (st : Heap) (ms : List Nat) :
    ∀ a, chainAt st a ms → ∀ m ∈ ms,
      (storeFind st.store m).isSome = true ∧ m ≠ sentinelAddr := by
  induction ms with
  | nil =>
    intro a _ m hm
    simp at hm
  | cons hd tl ih =>
    intro a hc m hm
    obtain ⟨rfl, hsome, hne, hrest⟩ := hc
    rcases List.mem_cons.mp hm with rfl | hmtl
    · exact ⟨hsome, hne⟩
    · exact ih _ hrest m hmtl

theorem walkFrom_of_chainAt (st : Heap) (ms : List Nat) :
    ∀ a fuel, chainAt st a ms → ms.length < fuel →
      walkFrom st fuel a = ms.map (fun m => (m, bget st m)) := by
  induction ms with
  | nil =>
    intro a fuel hc _
    cases fuel with
    | zero => rfl
    | succ f =>
      unfold chainAt at hc
      unfold walkFrom
      rw [if_pos hc]
      rfl
  | cons hd tl ih =>
    intro a fuel hc hlen
    obtain ⟨rfl, hsome, hne, hrest⟩ := hc
    cases fuel with
    | zero => simp at hlen
    | succ f =>
      unfold walkFrom
      rw [if_neg hne]
      obtain ⟨b, hb⟩ := Option.isSome_iff_exists.mp hsome
      rw [hb]
      dsimp only
      have hbb : bget st a = b := bget_eq_of_find st a b hb
      rw [show b.next = (bget st a).next from by rw [hbb]]
      rw [ih _ f hrest (by simpa using hlen)]
      simp [hbb]

theorem mem_keys_of_chain (st : Heap) (ms : List Nat) (h : goodChain st ms) :
    ms.length ≤ st.store.length := by
  obtain ⟨hc, _, _, hnd, _⟩ := h
  have hsub : ms ⊆ st.store.map Prod.fst := by
    intro m hm
    exact (storeFind_isSome_iff _ _).mp (chainAt_mem st ms _ hc m hm).1
  have := (List.Nodup.subperm hnd hsub).length_le
  simpa using this

theorem freeCells_of_goodChain (st : Heap) (ms : List Nat) (h : goodChain st ms) :
    freeCells st = ms.map (fun m => (m, bget st m)) := by
  unfold freeCells
  exact walkFrom_of_chainAt st ms _ _ h.1
    (Nat.lt_succ_of_le (mem_keys_of_chain st ms h))

theorem length_of_goodChain (st : Heap) (ms : List Nat) (h : goodChain st ms) :
    free_list_length st = ms.length := by
  unfold free_list_length
  rw [freeCells_of_goodChain st ms h]
  simp

theorem getLastD_mem (ms : List Nat) (d : Nat) (h : ms ≠ []) : ms.getLastD d ∈ ms := by
  induction ms generalizing d with
  | nil => exact absurd rfl h
  | cons hd tl ih =>
    cases tl with
    | nil => simp [List.getLastD]
    | cons hd2 tl2 =>
      have := ih (d := hd) (by simp)
      simp only [List.getLastD]
      exact List.mem_cons_of_mem _ this

theorem getLastD_concat2 (ms : List Nat) (b d : Nat) :
    (ms ++ [b]).getLastD d = b := by
  induction ms generalizing d with
  | nil => rfl
  | cons hd tl ih => simpa [List.getLastD] using ih (d := hd)


theorem keys_setBlk (st : Heap) (a : Nat) (b : Block)
    (h : (storeFind st.store a).isSome = true) :
    (setBlk st a b).store.map Prod.fst = st.store.map Prod.fst := by
  unfold setBlk
  exact storeSet_keys st.store a b h

theorem insertNil_extra (st : Heap) (b : Nat) (x : Nat) :
    (bget (insertLoop st b []) x).capacity = (bget st x).capacity ∧
    (bget (insertLoop st b []) x).size = (bget st x).size ∧
    (x ≠ b → x ≠ sentinelAddr → (bget (insertLoop st b []) x).prev = (bget st x).prev) ∧
    (x ≠ b → x ≠ (bget st sentinelAddr).prev →
      (bget (insertLoop st b []) x).next = (bget st x).next) := by
  refine ⟨?_, ?_, ?_, ?_⟩
  · simp only [insertLoop, wnext, wprev, bget_set]
    split_ifs <;> first | rfl | omega | (dsimp only; first | rfl | omega | (subst_vars; rfl) | simp_all)
  · simp only [insertLoop, wnext, wprev, bget_set]
    split_ifs <;> first | rfl | omega | (dsimp only; first | rfl | omega | (subst_vars; rfl) | simp_all)
  · intro h1 h2
    simp only [insertLoop, wnext, wprev, bget_set]
    split_ifs <;> first | rfl | omega | (dsimp only; first | rfl | omega | (subst_vars; rfl) | simp_all)
  · intro h1 h2
    simp only [insertLoop, wnext, wprev, bget_set]
    split_ifs <;> first | rfl | omega | (dsimp only; first | rfl | omega | (subst_vars; rfl) | simp_all)

theorem keys_wnext (st : Heap) (a v : Nat) (h : (storeFind st.store a).isSome = true) :
    (wnext st a v).store.map Prod.fst = st.store.map Prod.fst :=
  keys_setBlk st a _ h

theorem keys_wprev (st : Heap) (a v : Nat) (h : (storeFind st.store a).isSome = true) :
    (wprev st a v).store.map Prod.fst = st.store.map Prod.fst :=
  keys_setBlk st a _ h

theorem isSome_of_keys (st st' : Heap) (a : Nat)
    (hk : st'.store.map Prod.fst = st.store.map Prod.fst)
    (h : (storeFind st.store a).isSome = true) :
    (storeFind st'.store a).isSome = true := by
  rw [storeFind_isSome_iff, hk, ← storeFind_isSome_iff]
  exact h

theorem insertNil_keys (st : Heap) (b : Nat)
    (ht : (storeFind st.store ((bget st sentinelAddr).prev)).isSome = true)
    (h0 : (storeFind st.store sentinelAddr).isSome = true)
    (hb : (storeFind st.store b).isSome = true) :
    (insertLoop st b []).store.map Prod.fst = st.store.map Prod.fst := by
  have e : insertLoop st b []
      = wprev (wnext (wprev (wnext st ((bget st sentinelAddr).prev) b)
          sentinelAddr b) b sentinelAddr) b ((bget st sentinelAddr).prev) := rfl
  rw [e]
  have k1 := keys_wnext st ((bget st sentinelAddr).prev) b ht
  have k2 := keys_wprev _ sentinelAddr b (isSome_of_keys _ _ _ k1 h0)
  have k3 := keys_wnext _ b sentinelAddr
    (isSome_of_keys _ _ _ (k2.trans k1) hb)
  have k4 := keys_wprev _ b ((bget st sentinelAddr).prev)
    (isSome_of_keys _ _ _ ((k3.trans k2).trans k1) hb)
  rw [k4, k3, k2, k1]


theorem chainAt_snoc_aux (st st' : Heap) (b t : Nat)
    (hbsome : (storeFind st'.store b).isSome = true)
    (hb0 : b ≠ sentinelAddr)
    (htnext : (bget st' t).next = b)
    (hbnext : (bget st' b).next = sentinelAddr)
    (hkeys : st'.store.map Prod.fst = st.store.map Prod.fst) :
    ∀ ms' a, chainAt st a (ms' ++ [t]) →
      (∀ m ∈ ms', (bget st' m).next = (bget st m).next) →
      chainAt st' a (ms' ++ [t] ++ [b]) := by
  intro ms'
  induction ms' with
  | nil =>
    intro a hc _
    obtain ⟨rfl, hsome, hne, _⟩ := hc
    refine ⟨rfl, isSome_of_keys st st' a hkeys hsome, hne, ?_⟩
    rw [htnext]
    exact ⟨rfl, hbsome, hb0, by rw [hbnext]; rfl⟩
  | cons m tl ih =>
    intro a hc hframe
    obtain ⟨rfl, hsome, hne, hrest⟩ := hc
    refine ⟨rfl, isSome_of_keys st st' a hkeys hsome, hne, ?_⟩
    rw [hframe a (List.mem_cons_self _ _)]
    exact ih _ hrest (fun m hm => hframe m (List.mem_cons_of_mem _ hm))

theorem pchainAt_snoc (st st' : Heap) (b : Nat) :
    ∀ ms p, pchainAt st p ms →
      (∀ m ∈ ms, (bget st' m).prev = (bget st m).prev) →
      (bget st' b).prev = ms.getLastD p →
      pchainAt st' p (ms ++ [b]) := by
  intro ms
  induction ms with
  | nil =>
    intro p _ _ hbprev
    exact ⟨hbprev, trivial⟩
  | cons m tl ih =>
    intro p hc hframe hbprev
    obtain ⟨hmp, hrest⟩ := hc
    refine ⟨by rw [hframe m (List.mem_cons_self _ _)]; exact hmp, ?_⟩
    exact ih m hrest (fun x hx => hframe x (List.mem_cons_of_mem _ hx))
      (by rw [hbprev, List.getLastD_cons])

theorem chainAt_congr (st st' : Heap) (ms : List Nat)
    (hkeys : st'.store.map Prod.fst = st.store.map Prod.fst) :
    ∀ a, chainAt st a ms →
      (∀ m ∈ ms, (bget st' m).next = (bget st m).next) →
      chainAt st' a ms := by
  induction ms with
  | nil => intro a hc _; exact hc
  | cons m tl ih =>
    intro a hc hframe
    obtain ⟨rfl, hsome, hne, hrest⟩ := hc
    refine ⟨rfl, isSome_of_keys st st' a hkeys hsome, hne, ?_⟩
    rw [hframe a (List.mem_cons_self _ _)]
    exact ih _ hrest (fun m hm => hframe m (List.mem_cons_of_mem _ hm))

theorem pchainAt_congr (st st' : Heap) (ms : List Nat) :
    ∀ p, pchainAt st p ms →
      (∀ m ∈ ms, (bget st' m).prev = (bget st m).prev) →
      pchainAt st' p ms := by
  induction ms with
  | nil => intro p hc _; exact hc
  | cons m tl ih =>
    intro p hc hframe
    obtain ⟨hmp, hrest⟩ := hc
    exact ⟨by rw [hframe m (List.mem_cons_self _ _)]; exact hmp,
      ih m hrest (fun x hx => hframe x (List.mem_cons_of_mem _ hx))⟩


theorem insert_no_merge (st : Heap) (b : Nat)
    (hall : ∀ c ∈ freeCells st, ¬ adjacent st b c.1 ∧ ¬ adjacent st c.1 b) :
    free_list_insert st b = insertLoop st b [] := by
  unfold free_list_insert
  conv_lhs => rw [← List.append_nil (freeCells st)]
  exact insertLoop_skip st b _ [] hall

theorem insert_grows (st : Heap) (ms : List Nat) (b : Nat)
    (hgc : goodChain st ms) (hb : (storeFind st.store b).isSome = true)
    (hb0 : b ≠ sentinelAddr) (hbm : b ∉ ms)
    (hnoadj : ∀ m ∈ ms, ¬ adjacent st b m ∧ ¬ adjacent st m b) :
    goodChain (free_list_insert st b) (ms ++ [b]) ∧
    (free_list_insert st b).store.map Prod.fst = st.store.map Prod.fst ∧
    ∀ x, (bget (free_list_insert st b) x).capacity = (bget st x).capacity := by
  obtain ⟨hchain, hpchain, hback, hnodup, h0some⟩ := hgc
  have hcells : freeCells st = ms.map (fun m => (m, bget st m)) :=
    freeCells_of_goodChain st ms ⟨hchain, hpchain, hback, hnodup, h0some⟩
  have hins : free_list_insert st b = insertLoop st b [] := by
    apply insert_no_merge
    intro c hc
    rw [hcells] at hc
    obtain ⟨m, hm, rfl⟩ := List.mem_map.mp hc
    exact hnoadj m hm
  have hmem0 : ∀ m ∈ ms, m ≠ sentinelAddr :=
    fun m hm => (chainAt_mem st ms _ hchain m hm).2
  have htmem : ms ≠ [] → (bget st sentinelAddr).prev ∈ ms := by
    intro hne
    rw [hback]
    exact getLastD_mem ms _ hne
  have htb : (bget st sentinelAddr).prev ≠ b := by
    rcases eq_or_ne ms [] with rfl | hne
    · rw [hback]
      exact fun hh => hb0 hh.symm
    · intro hh
      exact hbm (hh ▸ htmem hne)
  have htsome : (storeFind st.store ((bget st sentinelAddr).prev)).isSome = true := by
    rcases eq_or_ne ms [] with rfl | hne
    · rw [hback]
      exact h0some
    · exact (chainAt_mem st ms _ hchain _ (htmem hne)).1
  have hkeys : (insertLoop st b []).store.map Prod.fst = st.store.map Prod.fst :=
    insertNil_keys st b htsome h0some hb
  obtain ⟨f1, f2, f3, f4, f5⟩ := insertLoop_nil_facts st b hb0 htb
  have hextra := insertNil_extra st b
  have hbsome : (storeFind (insertLoop st b []).store b).isSome = true :=
    isSome_of_keys st _ b hkeys hb
  rw [hins]
  refine ⟨⟨?_, ?_, ?_, ?_, ?_⟩, hkeys, fun x => (hextra x).1⟩
  · -- next-chain over ms ++ [b]
    rcases List.eq_nil_or_concat ms with rfl | ⟨L, t0, rfl⟩
    · -- empty list: sentinel.next now points at b
      have hsn : (bget (insertLoop st b []) sentinelAddr).next = b := by
        have := f1
        rw [hback] at this
        exact this
      rw [hsn]
      exact ⟨rfl, hbsome, hb0, by rw [f3]; rfl⟩
    · rw [List.concat_eq_append] at *
      have ht0 : (bget st sentinelAddr).prev = t0 := by
        rw [hback, getLastD_concat2]
      have hsn : (bget (insertLoop st b []) sentinelAddr).next
          = (bget st sentinelAddr).next := by
        refine ((hextra sentinelAddr).2.2.2 (fun hh => hb0 hh.symm) ?_)
        rw [ht0]
        intro hh
        exact hmem0 t0 (by simp) hh.symm
      rw [hsn]
      have hLne : ∀ m ∈ L, m ≠ t0 := by
        intro m hm
        have := hnodup
        rw [List.nodup_append] at this
        intro hh
        exact this.2.2 hm (by simp [hh])
      refine chainAt_snoc_aux st _ b t0 hbsome hb0 ?_ f3 hkeys L _ hchain ?_
      · rw [← ht0]
        exact f1
      · intro m hm
        refine ((hextra m).2.2.2 ?_ ?_)
        · intro hh
          exact hbm (by rw [← hh]; exact List.mem_append_left _ hm)
        · rw [ht0]
          intro hh
          exact hLne m hm hh
  · -- prev-chain
    refine pchainAt_snoc st _ b ms sentinelAddr hpchain ?_ ?_
    · intro m hm
      exact (hextra m).2.2.1 (fun hh => hbm (hh ▸ hm)) (hmem0 m hm)
    · rw [f4, hback]
  · rw [f2, getLastD_concat2]
  · rw [List.nodup_append]
    refine ⟨hnodup, List.nodup_singleton b, ?_⟩
    intro a ha hb'
    simp at hb'
    subst hb'
    exact hbm ha
  · exact isSome_of_keys st _ sentinelAddr hkeys h0some


theorem adjacent_congr (st st' : Heap)
    (hcap : ∀ x, (bget st' x).capacity = (bget st x).capacity) (x y : Nat) :
    adjacent st' x y ↔ adjacent st x y := by
  unfold adjacent
  rw [hcap x]

theorem isSome_setBlk (st : Heap) (a : Nat) (b : Block) (x : Nat)
    (h : (storeFind st.store x).isSome = true) :
    (storeFind (setBlk st a b).store x).isSome = true := by
  show (storeFind (storeSet st.store a b) x).isSome = true
  rw [storeFind_set]
  split_ifs
  · rfl
  · exact h

theorem isSome_spliceMerged (st : Heap) (b ca x : Nat)
    (h : (storeFind st.store x).isSome = true) :
    (storeFind (spliceMerged st b ca).store x).isSome = true := by
  unfold spliceMerged wprev wnext
  exact isSome_setBlk _ _ _ _ (isSome_setBlk _ _ _ _ (isSome_setBlk _ _ _ _
    (isSome_setBlk _ _ _ _ h)))

theorem isSome_merge (st : Heap) (d s x : Nat) (hadj : adjacent st d s)
    (h : (storeFind st.store x).isSome = true) :
    (storeFind (block_merge st d s).2.store x).isSome = true := by
  unfold adjacent at hadj
  unfold block_merge
  rw [if_pos hadj]
  dsimp only
  show (storeFind (wcap st d _).store x).isSome = true
  unfold wcap
  exact isSome_setBlk _ _ _ _ h

theorem insert_fold (bs : List Nat) : ∀ (st : Heap) (ms : List Nat),
    goodChain st ms →
    (∀ b ∈ bs, (storeFind st.store b).isSome = true ∧ b ≠ sentinelAddr) →
    bs.Nodup →
    (∀ b ∈ bs, b ∉ ms) →
    (∀ b ∈ bs, ∀ m ∈ ms, ¬ adjacent st b m ∧ ¬ adjacent st m b) →
    (∀ b ∈ bs, ∀ b' ∈ bs, b ≠ b' → ¬ adjacent st b b') →
    goodChain (bs.foldl free_list_insert st) (ms ++ bs) ∧
    (bs.foldl free_list_insert st).store.map Prod.fst = st.store.map Prod.fst ∧
    ∀ x, (bget (bs.foldl free_list_insert st) x).capacity = (bget st x).capacity := by
  induction bs with
  | nil =>
    intro st ms hgc _ _ _ _ _
    refine ⟨?_, rfl, fun x => rfl⟩
    simpa using hgc
  | cons b bs' ih =>
    intro st ms hgc hsome hnd hdisj hadj1 hadj2
    have hbhd := hsome b (List.mem_cons_self _ _)
    obtain ⟨hgc1, hkeys1, hcap1⟩ := insert_grows st ms b hgc hbhd.1 hbhd.2
      (hdisj b (List.mem_cons_self _ _))
      (hadj1 b (List.mem_cons_self _ _))
    have hbnotbs : b ∉ bs' := (List.nodup_cons.mp hnd).1
    have htrans := adjacent_congr st (free_list_insert st b) hcap1
    have hmain := ih (free_list_insert st b) (ms ++ [b]) hgc1
      (fun b' hb' => ⟨isSome_of_keys st _ b' hkeys1 (hsome b' (List.mem_cons_of_mem _ hb')).1,
        (hsome b' (List.mem_cons_of_mem _ hb')).2⟩)
      ((List.nodup_cons.mp hnd).2)
      (fun b' hb' => by
        intro hmem
        rcases List.mem_append.mp hmem with hmem | hmem
        · exact hdisj b' (List.mem_cons_of_mem _ hb') hmem
        · simp at hmem
          subst hmem
          exact hbnotbs hb')
      (fun b' hb' m hm => by
        rcases List.mem_append.mp hm with hm | hm
        · have := hadj1 b' (List.mem_cons_of_mem _ hb') m hm
          exact ⟨fun hc => this.1 ((htrans _ _).mp hc),
            fun hc => this.2 ((htrans _ _).mp hc)⟩
        · simp at hm
          subst hm
          have hne : b' ≠ m := fun hh => hbnotbs (hh ▸ hb')
          refine ⟨fun hc => ?_, fun hc => ?_⟩
          · exact hadj2 b' (List.mem_cons_of_mem _ hb') m (List.mem_cons_self _ _)
              hne ((htrans _ _).mp hc)
          · exact hadj2 m (List.mem_cons_self _ _) b' (List.mem_cons_of_mem _ hb')
              (fun hh => hne hh.symm) ((htrans _ _).mp hc))
      (fun b1 hb1 b2 hb2 hne => fun hc =>
        hadj2 b1 (List.mem_cons_of_mem _ hb1) b2 (List.mem_cons_of_mem _ hb2)
          hne ((htrans _ _).mp hc))
    rw [List.foldl_cons]
    refine ⟨?_, hmain.2.1.trans hkeys1, fun x => (hmain.2.2 x).trans (hcap1 x)⟩
    have := hmain.1
    rwa [List.append_assoc] at this


theorem claim_C7 :
    (∀ (st : Heap) (bs : List Nat),
      goodChain st [] →
      (∀ b ∈ bs, (storeFind st.store b).isSome = true ∧ b ≠ sentinelAddr) →
      bs.Nodup →
      (∀ b ∈ bs, ∀ b' ∈ bs, b ≠ b' → ¬ adjacent st b b') →
      free_list_length (bs.foldl free_list_insert st) = bs.length) ∧
    (∀ (st : Heap) (b1 b2 : Nat),
      goodChain st [] →
      (storeFind st.store b1).isSome = true → (storeFind st.store b2).isSome = true →
      b1 ≠ sentinelAddr → b2 ≠ sentinelAddr → b1 ≠ b2 →
      (adjacent st b1 b2 ∨ adjacent st b2 b1) →
      free_list_length (free_list_insert (free_list_insert st b1) b2) = 1) := by
  constructor
  · intro st bs hgc hsome hnd hadj
    obtain ⟨hgcf, _, _⟩ := insert_fold bs st [] hgc hsome hnd
      (by simp) (by simp) hadj
    have := length_of_goodChain _ _ hgcf
    simpa using this
  · intro st b1 b2 hgc hs1 hs2 hb10 hb20 hne hadj
    obtain ⟨hgc1, hkeys1, hcap1⟩ := insert_grows st [] b1 hgc hs1 hb10
      (by simp) (by simp)
    set st1 := free_list_insert st b1 with hst1
    have hgc1b : goodChain st1 [b1] := by simpa using hgc1
    obtain ⟨hchain1, hpchain1, hback1, _, h0some1⟩ := hgc1b
    obtain ⟨hb1next0, hb1some, hb1ne0, hb1rest⟩ := hchain1
    have hb1next : (bget st1 b1).next = sentinelAddr := hb1rest
    have hb1prev : (bget st1 b1).prev = sentinelAddr := hpchain1.1
    have hback1' : (bget st1 sentinelAddr).prev = b1 := hback1
    have htrans := adjacent_congr st st1 hcap1
    have hcells1 : freeCells st1 = [(b1, bget st1 b1)] := by
      have := freeCells_of_goodChain st1 [b1] ⟨⟨hb1next0, hb1some, hb1ne0, hb1rest⟩,
        hpchain1, hback1, by simp, h0some1⟩
      simpa using this
    have hins2 : free_list_insert st1 b2 = insertLoop st1 b2 [(b1, bget st1 b1)] := by
      unfold free_list_insert
      rw [hcells1]
    by_cases hA : adjacent st1 b2 b1
    · -- merge(b2, b1) succeeds: b2 absorbs b1 and takes its place
      rw [hins2, insertLoop_cons_posA st1 b2 b1 _ [] hA]
      have hMb1 : bget (block_merge st1 b2 b1).2 b1 = bget st1 b1 := by
        rw [bget_merge st1 b2 b1 hA b1, if_neg (fun hh => hne hh.symm)]
      obtain ⟨g1, g2, g3, g4, g5⟩ := spliceMerged_facts (block_merge st1 b2 b1).2 b2 b1
        (fun hh => hne hh.symm)
        (by rw [hMb1, hb1prev]; exact fun hh => hb1ne0 hh.symm)
        (by rw [hMb1, hb1prev]; exact fun hh => hb20 hh.symm)
        (by rw [hMb1, hb1next]; exact fun hh => hb20 hh.symm)
      rw [hMb1, hb1prev] at g1 g3
      rw [hMb1, hb1next] at g2 g4
      have hS0 : (storeFind (spliceMerged (block_merge st1 b2 b1).2 b2 b1).store
          sentinelAddr).isSome = true :=
        isSome_spliceMerged _ _ _ _ (isSome_merge st1 b2 b1 sentinelAddr hA h0some1)
      have hSb2 : (storeFind (spliceMerged (block_merge st1 b2 b1).2 b2 b1).store
          b2).isSome = true :=
        isSome_spliceMerged _ _ _ _ (isSome_merge st1 b2 b1 b2 hA
          (isSome_of_keys st st1 b2 hkeys1 hs2))
      have hgcS : goodChain (spliceMerged (block_merge st1 b2 b1).2 b2 b1) [b2] := by
        refine ⟨?_, ⟨g1, trivial⟩, ?_, by simp, hS0⟩
        · rw [g3]
          exact ⟨rfl, hSb2, hb20, by rw [g2]; rfl⟩
        · simpa using g4
      simpa using length_of_goodChain _ _ hgcS
    · -- merge(b1, b2) succeeds instead: b1 absorbs b2, list unchanged
      have hB : adjacent st1 b1 b2 := by
        rcases hadj with h | h
        · exact (htrans _ _).mpr h
        · exact absurd ((htrans _ _).mpr h) hA
      rw [hins2, insertLoop_cons_posB st1 b2 b1 _ [] hA hB]
      have hnextM : ∀ x, (bget (block_merge st1 b1 b2).2 x).next = (bget st1 x).next := by
        intro x
        rw [bget_merge st1 b1 b2 hB x]
        split_ifs with hh
        · subst hh
          rfl
        · rfl
      have hprevM : ∀ x, (bget (block_merge st1 b1 b2).2 x).prev = (bget st1 x).prev := by
        intro x
        rw [bget_merge st1 b1 b2 hB x]
        split_ifs with hh
        · subst hh
          rfl
        · rfl
      have hgcM : goodChain (block_merge st1 b1 b2).2 [b1] := by
        refine ⟨?_, ?_, ?_, by simp, isSome_merge st1 b1 b2 sentinelAddr hB h0some1⟩
        · rw [hnextM]
          refine chainAt_congr st1 _ [b1] ?_ _ ⟨hb1next0, hb1some, hb1ne0, hb1rest⟩
            (fun m _ => hnextM m)
          · calc (block_merge st1 b1 b2).2.store.map Prod.fst
                = (wcap st1 b1 _).store.map Prod.fst := by
                  unfold adjacent at hB
                  unfold block_merge
                  rw [if_pos hB]
              _ = st1.store.map Prod.fst := keys_setBlk st1 b1 _ hb1some
        · exact pchainAt_congr st1 _ [b1] _ hpchain1 (fun m _ => hprevM m)
        · rw [hprevM]
          exact hback1
      simpa using length_of_goodChain _ _ hgcM


theorem claim_C7_witness :
    free_list_length ([4096, 4200].foldl free_list_insert insertTwoDemo) = 2 ∧
    free_list_length (free_list_insert (free_list_insert mergeDemo 4096) 4192) = 1 := by
  constructor
  · refine claim_C7.1 insertTwoDemo [4096, 4200]
      ⟨show (bget insertTwoDemo sentinelAddr).next = sentinelAddr from by decide,
        trivial, by decide, by simp, by decide⟩
      (by decide) (by decide) (by decide)
  · refine claim_C7.2 mergeDemo 4096 4192
      ⟨show (bget mergeDemo sentinelAddr).next = sentinelAddr from by decide,
        trivial, by decide, by simp, by decide⟩
      (by decide) (by decide) (by decide) (by decide) (by decide)
      (Or.inl (by decide))

/-! ## Claim C3: every reachable free-list block keeps size within an
aligned capacity, across arbitrary legal operation traces -/


theorem bget_alloc (st : Heap) (s x : Nat) :
    bget (block_allocate st s).2 x =
      if st.brk = x then ⟨ALIGN s, s, st.brk, st.brk⟩ else bget st x := by
  show bget { store := storeSet st.store st.brk _, brk := _, counters := _ } x = _
  rw [bget_mk, storeFind_set]
  split_ifs
  · rfl
  · rfl

theorem Inv_alloc (st : Heap) (s : Nat) (hI : Inv st) : Inv (block_allocate st s).2 := by
  intro x hx
  rw [bget_alloc st s x]
  split_ifs with hh
  · exact ⟨le_ALIGN s, ALIGN_dvd s⟩
  · exact hI x hx

theorem detach_extra (st : Heap) (a x : Nat) :
    (bget (block_detach st (some a)).2 x).capacity = (bget st x).capacity ∧
    (bget (block_detach st (some a)).2 x).size = (bget st x).size := by
  constructor
  · simp only [block_detach, wnext, wprev, bget_set]
    split_ifs <;> first | rfl | omega | (dsimp only; first | rfl | omega | (subst_vars; rfl) | simp_all)
  · simp only [block_detach, wnext, wprev, bget_set]
    split_ifs <;> first | rfl | omega | (dsimp only; first | rfl | omega | (subst_vars; rfl) | simp_all)

theorem Inv_detach (st : Heap) (a? : Option Nat) (hI : Inv st) :
    Inv (block_detach st a?).2 := by
  match a? with
  | none => exact hI
  | some a =>
    intro x hx
    rw [(detach_extra st a x).1, (detach_extra st a x).2]
    exact hI x hx

theorem Inv_merge (st : Heap) (d s : Nat) (hI : Inv st) :
    Inv (block_merge st d s).2 := by
  by_cases hadj : adjacent st d s
  · intro x hx
    rw [bget_merge st d s hadj x]
    split_ifs with hh
    · subst hh
      dsimp only
      obtain ⟨h1, h2⟩ := hI d hx
      exact ⟨le_trans h1 (Nat.le_add_right _ _), Dvd.dvd.add h2 (ALIGN_dvd _)⟩
    · exact hI x hx
  · rw [block_merge_neg st d s hadj]
    exact hI

theorem split_capsize (st : Heap) (a s : Nat)
    (h : ALIGN s + sizeofBlock < (bget st a).capacity) (x : Nat) :
    ((bget (block_split st a s).2 x).capacity
        = if a = x then ALIGN s
          else if a + sizeofBlock + ALIGN s = x
            then (bget st a).capacity - ALIGN s - sizeofBlock
          else (bget st x).capacity) ∧
    ((bget (block_split st a s).2 x).size
        = if a = x then s
          else if a + sizeofBlock + ALIGN s = x
            then (bget st a).capacity - ALIGN s - sizeofBlock
          else (bget st x).size) := by
  constructor
  · simp only [block_split]
    rw [if_pos h]
    simp only [wnext, wsize, wcap, wprev, bget_setCounters, bget_set]
    split_ifs <;> first | rfl | omega | (dsimp only; first | rfl | omega | (subst_vars; rfl) | simp_all)
  · simp only [block_split]
    rw [if_pos h]
    simp only [wnext, wsize, wcap, wprev, bget_setCounters, bget_set]
    split_ifs <;> first | rfl | omega | (dsimp only; first | rfl | omega | (subst_vars; rfl) | simp_all)

theorem Inv_split (st : Heap) (a s : Nat) (hI : Inv st) (ha : a ≠ sentinelAddr) :
    Inv (block_split st a s).2 := by
  by_cases h : ALIGN s + sizeofBlock < (bget st a).capacity
  · intro x hx
    obtain ⟨hc, hs⟩ := split_capsize st a s h x
    rw [hc, hs]
    obtain ⟨ha1, ha2⟩ := hI a ha
    split_ifs with h1 h2
    · exact ⟨le_ALIGN s, ALIGN_dvd s⟩
    · exact ⟨le_refl _, Nat.dvd_sub' (Nat.dvd_sub' ha2 (ALIGN_dvd s)) (by decide)⟩
    · exact hI x hx
  · have : block_split st a s = (a, st) := by
      simp only [block_split]
      rw [if_neg h]
    rw [this]
    exact hI
  

theorem spliceMerged_extra (st : Heap) (b ca x : Nat) (hbca : b ≠ ca) :
    (bget (spliceMerged st b ca) x).capacity = (bget st x).capacity ∧
    (bget (spliceMerged st b ca) x).size = (bget st x).size := by
  constructor
  · simp only [spliceMerged, wnext, wprev, bget_set]
    split_ifs <;> (try dsimp only at *) <;> (try subst_vars) <;>
      first
        | rfl
        | omega
        | exact congrArg Block.capacity (congrArg (bget st) (by omega))
  · simp only [spliceMerged, wnext, wprev, bget_set]
    split_ifs <;> (try dsimp only at *) <;> (try subst_vars) <;>
      first
        | rfl
        | omega
        | exact congrArg Block.size (congrArg (bget st) (by omega))

theorem Inv_insertLoop (b : Nat) (cells : List (Nat × Block)) :
    ∀ st, Inv st → Inv (insertLoop st b cells) := by
  induction cells with
  | nil =>
    intro st hI x hx
    obtain ⟨e1, e2, -, -⟩ := insertNil_extra st b x
    rw [e1, e2]
    exact hI x hx
  | cons c rest ih =>
    intro st hI
    obtain ⟨ca, cb⟩ := c
    by_cases h1 : adjacent st b ca
    · rw [insertLoop_cons_posA st b ca cb rest h1]
      intro x hx
      have hbca : b ≠ ca := by
        have h32 := sizeofBlock_eq
        unfold adjacent at h1
        omega
      obtain ⟨g1, g2⟩ := spliceMerged_extra (block_merge st b ca).2 b ca x hbca
      rw [g1, g2]
      exact Inv_merge st b ca hI x hx
    · by_cases h2 : adjacent st ca b
      · rw [insertLoop_cons_posB st b ca cb rest h1 h2]
        exact Inv_merge st ca b hI
      · rw [insertLoop_cons_none st b ca cb rest h1 h2]
        exact ih st hI

theorem Inv_insert (st : Heap) (b : Nat) (hI : Inv st) :
    Inv (free_list_insert st b) := by
  unfold free_list_insert
  exact Inv_insertLoop b (freeCells st) st hI

theorem Inv_search_ff (st : Heap) (s : Nat) (hI : Inv st) :
    Inv (free_list_search_ff st s).2 := by
  unfold free_list_search_ff
  cases hp : ffLoop s (freeCells st) with
  | none => exact hI
  | some c =>
    obtain ⟨a0, b0⟩ := c
    dsimp only
    obtain ⟨hmem, hq⟩ := ffLoop_some s _ _ hp
    have hb0 : bget st a0 = b0 := bget_eq_of_find st a0 b0 (freeCells_mem st _ hmem).1
    intro x hx
    rw [bget_set]
    split_ifs with hh
    · subst hh
      refine ⟨?_, ?_⟩
      · show s ≤ b0.capacity
        exact hq
      · show ALIGNMENT ∣ b0.capacity
        rw [← hb0]
        exact (hI a0 hx).2
    · exact hI x hx

theorem Inv_search_bf (st : Heap) (s : Nat) (hI : Inv st) :
    Inv (free_list_search_bf st s).2 := by
  unfold free_list_search_bf
  cases hp : bfLoop s (freeCells st) none with
  | none => exact hI
  | some c =>
    obtain ⟨a0, b0⟩ := c
    dsimp only
    obtain ⟨hq, -, pre, post, hdec, -⟩ := bfLoop_none_spec s _ _ hp
    have hmem : (a0, b0) ∈ freeCells st := by
      rw [hdec]
      exact List.mem_append_right _ (List.mem_cons_self _ _)
    have hb0 : bget st a0 = b0 := bget_eq_of_find st a0 b0 (freeCells_mem st _ hmem).1
    intro x hx
    rw [bget_set]
    split_ifs with hh
    · subst hh
      refine ⟨hq, ?_⟩
      show ALIGNMENT ∣ b0.capacity
      rw [← hb0]
      exact (hI a0 hx).2
    · exact hI x hx

theorem Inv_search_wf (st : Heap) (s : Nat) (hI : Inv st) :
    Inv (free_list_search_wf st s).2 := by
  unfold free_list_search_wf
  cases hp : wfLoop s (freeCells st) none with
  | none => exact hI
  | some c =>
    obtain ⟨a0, b0⟩ := c
    dsimp only
    obtain ⟨hq, -, pre, post, hdec, -⟩ := wfLoop_none_spec s _ _ hp
    have hmem : (a0, b0) ∈ freeCells st := by
      rw [hdec]
      exact List.mem_append_right _ (List.mem_cons_self _ _)
    have hb0 : bget st a0 = b0 := bget_eq_of_find st a0 b0 (freeCells_mem st _ hmem).1
    intro x hx
    rw [bget_set]
    split_ifs with hh
    · subst hh
      refine ⟨hq, ?_⟩
      show ALIGNMENT ∣ b0.capacity
      rw [← hb0]
      exact (hI a0 hx).2
    · exact hI x hx

theorem Inv_search (st : Heap) (strat : Strategy) (s : Nat) (hI : Inv st) :
    Inv (free_list_search st strat s).2 := by
  cases strat with
  | ff =>
    have h := Inv_search_ff st s hI
    unfold free_list_search
    cases hr : free_list_search_ff st s with
    | mk o st2 =>
      rw [hr] at h
      cases o
      · exact h
      · exact h
  | bf =>
    have h := Inv_search_bf st s hI
    unfold free_list_search
    cases hr : free_list_search_bf st s with
    | mk o st2 =>
      rw [hr] at h
      cases o
      · exact h
      · exact h
  | wf =>
    have h := Inv_search_wf st s hI
    unfold free_list_search
    cases hr : free_list_search_wf st s with
    | mk o st2 =>
      rw [hr] at h
      cases o
      · exact h
      · exact h

theorem Inv_step (st : Heap) (op : Op) (hI : Inv st) (hl : legalOp op = true) :
    Inv (step st op) := by
  cases op with
  | alloc s => exact Inv_alloc st s hI
  | search strat s => exact Inv_search st strat s hI
  | insert a => exact Inv_insert st a hI
  | split a s =>
    have ha : a ≠ sentinelAddr := by simpa [legalOp] using hl
    exact Inv_split st a s hI ha
  | merge d s => exact Inv_merge st d s hI
  | detach a => exact Inv_detach st a hI

theorem Inv_run (ops : List Op) : ∀ st, Inv st → (∀ op ∈ ops, legalOp op = true) →
    Inv (run st ops) := by
  induction ops with
  | nil =>
    intro st hI _
    exact hI
  | cons op rest ih =>
    intro st hI hl
    show Inv (List.foldl step (step st op) rest)
    exact ih (step st op) (Inv_step st op hI (hl op (List.mem_cons_self _ _)))
      (fun o ho => hl o (List.mem_cons_of_mem _ ho))

theorem Inv_initial : Inv initialHeap := by
  intro x hx
  have hf : storeFind initialHeap.store x = none := by
    show (if sentinelAddr = x then some sentinelBlock else storeFind [] x) = none
    rw [if_neg (fun hh => hx hh.symm)]
    rfl
  unfold bget
  rw [hf]
  exact ⟨Nat.le_refl _, dvd_zero _⟩

/-- Claim C3: starting from the empty free list, after any sequence of core
operations (allocate, search with any strategy, insert, split, merge,
detach) in which the sentinel is never split, every block reachable from
the free-list sentinel has `size <= capacity` and a capacity that is a
multiple of the configured alignment. -/
theorem claim_C3 (ops : List Op) (hlegal : ∀ op ∈ ops, legalOp op = true) :
    ∀ c ∈ freeCells (run initialHeap ops),
      c.2.size ≤ c.2.capacity ∧ ALIGNMENT ∣ c.2.capacity := by
  intro c hc
  obtain ⟨hfind, hne⟩ := freeCells_mem _ c hc
  have hI := Inv_run ops initialHeap Inv_initial hlegal
  have hx := hI c.1 hne
  rwa [bget_eq_of_find _ _ _ hfind] at hx

/-- Claim C3 witness: the sample trace satisfies the legality condition and
its reachable blocks satisfy the invariant. -/
theorem claim_C3_witness :
    (∀ op ∈ demoOps, legalOp op = true) ∧
    ∀ c ∈ freeCells (run initialHeap demoOps),
      c.2.size ≤ c.2.capacity ∧ ALIGNMENT ∣ c.2.capacity := by
  refine ⟨?_, claim_C3 demoOps ?_⟩
  · decide
  · decide
end Malloc
